import Mathlib

/-!
Verification of the multi-object tracking core of `src/patitos/visionPatitos.py`
(`PathTracker.update`, lines 17-92, and `calculate_speed`, lines 95-101).

Modelling conventions.

* Observations.  A Python detection is a tuple of floats `(cx, cy, conf, cls)`.
  We embed a tuple as a `List ℚ` (rationals in place of floats; the association
  logic only subtracts, multiplies and compares, which ℚ models exactly).  Using
  a bare list (rather than a fixed record) keeps malformed observations — tuples
  with fewer than two fields — representable, which §7 of the spec talks about.

* Distances.  `np.linalg.norm(a - b)` feeds only into order comparisons
  (`np.argmin` and `< 100`).  Since `Real.sqrt` is strictly monotone on
  nonnegative inputs, comparing norms is equivalent to comparing squared norms,
  and `norm < 100 ↔ norm² < 10000`.  We therefore compute squared distances
  throughout and compare against `THRESH_SQ = 10000 = 100²`; this is an exact,
  executable rendering of every comparison the Python code performs.

* Dictionaries.  Python dicts are insertion ordered; we embed them as
  association lists `List (Nat × α)` with first-occurrence lookup, in-place
  replacement on existing keys and append on fresh keys, exactly dict semantics.

* Failure.  The only statement in `update` that can raise on tuple-shaped input
  is the matrix fill at lines 46-51: numpy raises `ValueError` when the two
  sliced positions have incompatible broadcast shapes.  The matrix is filled
  before any state is mutated in that branch, so we model `update` as returning
  `Option PathTracker`, `none` standing for the propagated exception.
-/

/-- An observation: a Python tuple of numbers, e.g. `(cx, cy, conf, cls)`,
embedded as a list of rationals. -/
def Obs : Type := List ℚ

instance : DecidableEq Obs := by
  unfold Obs; infer_instance

/-- The squared distance threshold: the source compares the Euclidean distance
against the literal `100` (line 67), so squared distances compare against
`100² = 10000`. -/
def THRESH_SQ : ℚ := 10000

/-- First-occurrence lookup in an association list (Python `d[k]`, as an
`Option`). -/
def alookup {α : Type} : List (Nat × α) → Nat → Option α
  | [], _ => none
  | e :: t, k => if e.1 = k then some e.2 else alookup t k

/-- Python `d[k] = v`: replace the value at the first occurrence of `k` in
place, or append a fresh entry at the end (dict insertion order). -/
def aset {α : Type} : List (Nat × α) → Nat → α → List (Nat × α)
  | [], k, v => [(k, v)]
  | e :: t, k, v => if e.1 = k then (k, v) :: t else e :: aset t k v

/-- Python `del d[k]`: drop the first occurrence of key `k` (a no-op if the key
is absent; Python would raise `KeyError`, which is unreachable in the states
this development evaluates — see the key-synchrony invariant below). -/
def adel {α : Type} : List (Nat × α) → Nat → List (Nat × α)
  | [], _ => []
  | e :: t, k => if e.1 = k then t else e :: adel t k

/-- The key list of an association list (Python `list(d.keys())`). -/
def keysOf {α : Type} (l : List (Nat × α)) : List Nat := l.map Prod.fst

/-- Squared norm of the numpy broadcast difference of two 1-D arrays
(lines 49-51): elementwise when the lengths agree, a length-1 operand
stretches to the other length, and any other combination raises `ValueError`
(`none`).  `np.linalg.norm` of the empty array is `0`. -/
def bsubSq (u v : List ℚ) : Option ℚ :=
  if u.length = v.length then
    some (((u.zip v).map (fun p => (p.1 - p.2) ^ 2)).sum)
  else if u.length = 1 then
    some ((v.map (fun y => (u.getD 0 0 - y) ^ 2)).sum)
  else if v.length = 1 then
    some ((u.map (fun x => (x - v.getD 0 0) ^ 2)).sum)
  else none

/-- Squared distance between the first two fields of two observations:
`np.linalg.norm(np.array(p[:2]) - np.array(q[:2]))`, squared. -/
def sqDist2 (p q : Obs) : Option ℚ :=
  bsubSq (List.take 2 p) (List.take 2 q)

/-- Index of the first minimal element of a list (`np.argmin` over the
C-order flattening), `0` on the empty list. -/
def firstMinIdx : List ℚ → Nat
  | [] => 0
  | [_] => 0
  | x :: y :: t =>
      let k := firstMinIdx (y :: t)
      if (y :: t).getD k 0 < x then k + 1 else 0

/-- The submatrix `distances[rows_idx, :][:, cols_idx]` flattened in C order
(line 62). -/
def subFlat (D : Nat → Nat → ℚ) (rows cols : List Nat) : List ℚ :=
  rows.flatMap (fun r => cols.map (fun c => D r c))

/-- `np.unravel_index(np.argmin(submatrix), (len(rows_idx), len(cols_idx)))`
(lines 62-63): the position, within `rows`/`cols`, of the first globally
minimal entry of the submatrix. -/
def pickPair (D : Nat → Nat → ℚ) (rows cols : List Nat) : Nat × Nat :=
  let k := firstMinIdx (subFlat D rows cols)
  (k / cols.length, k % cols.length)

/-- The association loop of lines 59-76: while both index lists are nonempty,
pick the submatrix position of the globally smallest remaining distance; if
that distance is `< 100` (squared: `< THRESH_SQ`) record the match and pop
both indices, otherwise break.  The loop pops one row per committed match, so
`rows.length` fuel is exactly enough; fuel only makes the recursion
structural.  Returns (matches as (row, col) pairs in commit order, remaining
`rows_idx`, remaining `cols_idx`). -/
def matchLoop (D : Nat → Nat → ℚ) :
    Nat → List Nat → List Nat → List (Nat × Nat) × List Nat × List Nat
  | 0, rows, cols => ([], rows, cols)
  | fuel + 1, rows, cols =>
    if 0 < rows.length ∧ 0 < cols.length then
      let ij := pickPair D rows cols
      let row := rows.getD ij.1 0
      let col := cols.getD ij.2 0
      if D row col < THRESH_SQ then
        let r := matchLoop D fuel (rows.eraseIdx ij.1) (cols.eraseIdx ij.2)
        ((row, col) :: r.1, r.2.1, r.2.2)
      else ([], rows, cols)
    else ([], rows, cols)

/-- The tracker state (`PathTracker.__init__`, lines 18-22): trajectories,
disappearance counters, the next ID to assign, and the removal bound. -/
structure PathTracker where
  paths : List (Nat × List Obs)
  disappeared : List (Nat × Nat)
  next_id : Nat
  max_disappeared : Nat
deriving DecidableEq

/-- A freshly constructed tracker (lines 18-22): empty state, IDs from 0,
`max_disappeared = 10`. -/
def initTracker : PathTracker :=
  { paths := [], disappeared := [], next_id := 0, max_disappeared := 10 }

/-- Lines 28-31 / 87-90, for one ID: increment its disappearance counter; if
the counter now exceeds `mx`, delete both the trajectory and the counter.
An absent counter would raise `KeyError` in Python; that case is unreachable
(the two dicts always hold the same keys) and is modelled as a no-op. -/
def ageOne (mx : Nat) (st : List (Nat × List Obs) × List (Nat × Nat))
    (id : Nat) : List (Nat × List Obs) × List (Nat × Nat) :=
  match alookup st.2 id with
  | some c =>
      if mx < c + 1 then (adel st.1 id, adel (aset st.2 id (c + 1)) id)
      else (st.1, aset st.2 id (c + 1))
  | none => st

/-- Fold `ageOne` over a list of IDs (the `for` loops at lines 27 and 85). -/
def ageAll (mx : Nat) (st : List (Nat × List Obs) × List (Nat × Nat))
    (ids : List Nat) : List (Nat × List Obs) × List (Nat × Nat) :=
  ids.foldl (ageOne mx) st

/-- Lines 36-39 / 79-82: each observation seeds a brand-new track under the
next sequential ID, with a one-element history and counter `0`. -/
def seedTracks (st : List (Nat × List Obs) × List (Nat × Nat) × Nat)
    (ds : List Obs) : List (Nat × List Obs) × List (Nat × Nat) × Nat :=
  ds.foldl (fun st d => (aset st.1 st.2.2 [d], aset st.2.1 st.2.2 0, st.2.2 + 1)) st

/-- Lines 68-69, folded over the committed matches: append the matched
detection to the track's history and reset its counter to `0`.  In the source
these writes are interleaved with the matching loop, but the loop's control
flow depends only on the precomputed distance matrix and on the index lists,
never on `paths`/`disappeared`, so applying them after the loop is
equivalent. -/
def applyMatches (object_ids : List Nat) (dets : List Obs)
    (st : List (Nat × List Obs) × List (Nat × Nat))
    (ms : List (Nat × Nat)) : List (Nat × List Obs) × List (Nat × Nat) :=
  ms.foldl (fun st rc =>
    let oid := object_ids.getD rc.1 0
    (aset st.1 oid (((alookup st.1 oid).getD []) ++ [dets.getD rc.2 []]),
     aset st.2 oid 0)) st

/-- Line 43: the most recent observation of each live track, in key order
(`[self.paths[obj_id][-1] for obj_id in object_ids]`).  `paths[id][-1]` on an
empty history would raise `IndexError`; histories are never empty (invariant
below), and the default `[]` is never read in the states this development
evaluates. -/
def prevCentroids (t : PathTracker) : List Obs :=
  (keysOf t.paths).map (fun oid => ((alookup t.paths oid).getD []).getLastD [])

/-- Whether the matrix fill of lines 46-51 completes without a broadcast
`ValueError` for this state and detection list. -/
def distOk (t : PathTracker) (dets : List Obs) : Bool :=
  (prevCentroids t).all (fun p => dets.all (fun d => (sqDist2 p d).isSome))

/-- The distance matrix of lines 46-51 (squared), totalised with `0` at
positions the checked code never reads. -/
def trackDistances (t : PathTracker) (dets : List Obs) : Nat → Nat → ℚ :=
  fun i j => (sqDist2 ((prevCentroids t).getD i []) (dets.getD j [])).getD 0

/-- The whole matching phase of lines 53-76: run the loop over all row and
column indices, guarded by `if distances.size > 0`. -/
def matchResult (t : PathTracker) (dets : List Obs) :
    List (Nat × Nat) × List Nat × List Nat :=
  let rows0 := List.range (prevCentroids t).length
  let cols0 := List.range dets.length
  if 0 < (prevCentroids t).length * dets.length then
    matchLoop (trackDistances t dets) (prevCentroids t).length rows0 cols0
  else ([], rows0, cols0)

/-- `PathTracker.update` (lines 24-92).  Branches in source order: empty
detection list (lines 26-32); no live tracks (lines 35-39); otherwise the
general association case (lines 40-90).  `none` models the numpy broadcast
`ValueError` escaping from the matrix fill (before any mutation in that
branch). -/
def update (t : PathTracker) (detections : List Obs) : Option PathTracker :=
  if detections.length = 0 then
    let st := ageAll t.max_disappeared (t.paths, t.disappeared) (keysOf t.disappeared)
    some { t with paths := st.1, disappeared := st.2 }
  else if t.paths.length = 0 then
    let st := seedTracks (t.paths, t.disappeared, t.next_id) detections
    some { t with paths := st.1, disappeared := st.2.1, next_id := st.2.2 }
  else if distOk t detections then
    let res := matchResult t detections
    let st1 := applyMatches (keysOf t.paths) detections (t.paths, t.disappeared) res.1
    let st2 := seedTracks (st1.1, st1.2, t.next_id)
        (res.2.2.map (fun c => detections.getD c []))
    let st3 := ageAll t.max_disappeared (st2.1, st2.2.1)
        (res.2.1.map (fun r => (keysOf t.paths).getD r 0))
    some { t with paths := st3.1, disappeared := st3.2, next_id := st2.2.2 }
  else none

/-- Iterated `update` over a sequence of frames; a raised exception (`none`)
aborts the run. -/
def updateSeq (t : PathTracker) : List (List Obs) → Option PathTracker
  | [] => some t
  | ds :: rest =>
    match update t ds with
    | some t' => updateSeq t' rest
    | none => none

/-- The IDs of the tracks that receive a matched detection in this call
(empty outside the general branch). -/
def matchedIds (t : PathTracker) (dets : List Obs) : List Nat :=
  if dets.length = 0 ∨ t.paths.length = 0 then []
  else (matchResult t dets).1.map (fun rc => (keysOf t.paths).getD rc.1 0)

/-- `true` iff, along the given frame sequence, track `id` never receives a
matched detection (and no step raises). -/
def unmatchedRun (id : Nat) : PathTracker → List (List Obs) → Bool
  | _, [] => true
  | t, ds :: rest =>
    decide (id ∉ matchedIds t ds) &&
      (match update t ds with
       | some t' => unmatchedRun id t' rest
       | none => false)

/-- The result type of `calculate_speed`.  The Python function divides a
numpy float by `time_diff` with no guard, so the result can be a finite
number, IEEE infinity, or IEEE NaN.  The finite payload carries the squared
magnitude of the speed (squares keep the value rational; zero-ness and
finiteness — all the spec talks about — are preserved exactly). -/
inductive FVal where
  | fin (q : ℚ)
  | inf
  | nan
deriving DecidableEq

/-- `calculate_speed` (lines 95-101): `0` for fewer than two points, else the
distance between the last two points divided by `time_diff`.  numpy float
division by zero does not raise: it yields `inf` (or `nan` when the distance
is also zero).  The finite case stores `distance² / time_diff²`. -/
def calculate_speed (points : List (ℚ × ℚ)) (time_diff : ℚ) : FVal :=
  if points.length < 2 then FVal.fin 0
  else
    let p1 := points.getD (points.length - 2) (0, 0)
    let p2 := points.getD (points.length - 1) (0, 0)
    let dsq := (p2.1 - p1.1) ^ 2 + (p2.2 - p1.2) ^ 2
    if time_diff = 0 then (if dsq = 0 then FVal.nan else FVal.inf)
    else FVal.fin (dsq / time_diff ^ 2)

/-- An observation with at least two position fields (the input contract of
§4.1 of the spec: "each Observation must carry at least 2-D position data").
The program itself always passes 4-tuples. -/
def WFobs (o : Obs) : Prop := 2 ≤ (o : List ℚ).length

instance : DecidablePred WFobs := fun o => by
  unfold WFobs; infer_instance

/-- A well-formed detection list: every observation carries a 2-D position. -/
def WFdets (ds : List Obs) : Prop := ∀ o ∈ ds, WFobs o

instance : DecidablePred WFdets := fun ds => by
  unfold WFdets; infer_instance

/-- Structural invariant of the tracker state. -/
structure TrackerInv (t : PathTracker) : Prop where
  nodup : (keysOf t.paths).Nodup
  sync : keysOf t.paths = keysOf t.disappeared
  bounded : ∀ e ∈ t.paths, e.1 < t.next_id
  hist_ne : ∀ e ∈ t.paths, e.2 ≠ []
  counter_le : ∀ e ∈ t.disappeared, e.2 ≤ t.max_disappeared

/-- Every stored observation has at least two position fields. -/
def WFState (t : PathTracker) : Prop :=
  ∀ e ∈ t.paths, ∀ o ∈ e.2, WFobs o

instance : DecidablePred WFState := fun t => by
  unfold WFState; infer_instance

/-- States reachable from a freshly constructed tracker by `update` calls
whose inputs respect the spec's observation contract. -/
inductive Reachable : PathTracker → Prop
  | init : Reachable initTracker
  | step {t t' : PathTracker} {v : List Obs} : Reachable t → WFdets v →
      update t v = some t' → Reachable t'

/-- The expected trajectories created by seeding `ds` starting at ID `n`
(used to state cold-start correctness). -/
def seededPaths (n : Nat) : List Obs → List (Nat × List Obs)
  | [] => []
  | d :: ds => (n, [d]) :: seededPaths (n + 1) ds

/-- The expected counters created by seeding `ds` starting at ID `n`. -/
def seededDis (n : Nat) : List Obs → List (Nat × Nat)
  | [] => []
  | _ :: ds => (n, 0) :: seededDis (n + 1) ds

/-- Modelled from the spec (§4.1, greedy nearest-centroid bipartite
matching): a declarative description of one frame's matching phase, written
from the spec's own words, to be refined by `matchLoop`.  `SpecGreedy D rows
cols ms rr cc` says: starting from the unmatched rows `rows` and columns
`cols`, the spec's loop commits exactly the matches `ms` in order and stops
with `rr`/`cc` unmatched.  It stops when either side is exhausted, or when
every remaining pair is at squared distance `≥ THRESH_SQ` (equivalently: the
smallest remaining distance meets or exceeds the threshold); it commits a
pair only if it is globally minimal among the remaining pairs and strictly
below the threshold. -/
inductive SpecGreedy (D : Nat → Nat → ℚ) :
    List Nat → List Nat → List (Nat × Nat) → List Nat → List Nat → Prop
  | exhausted {rows cols : List Nat} (h : rows = [] ∨ cols = []) :
      SpecGreedy D rows cols [] rows cols
  | stop {rows cols : List Nat}
      (hmin : ∀ r ∈ rows, ∀ c ∈ cols, THRESH_SQ ≤ D r c) :
      SpecGreedy D rows cols [] rows cols
  | commit {rows cols : List Nat} {row col : Nat}
      {ms : List (Nat × Nat)} {rr cc : List Nat}
      (hr : row ∈ rows) (hc : col ∈ cols)
      (hlt : D row col < THRESH_SQ)
      (hmin : ∀ r ∈ rows, ∀ c ∈ cols, D row col ≤ D r c)
      (rest : SpecGreedy D (rows.erase row) (cols.erase col) ms rr cc) :
      SpecGreedy D rows cols ((row, col) :: ms) rr cc

/-! ### Association-list lemmas -/

theorem alookup_eq_none_iff {α : Type} (l : List (Nat × α)) (k : Nat) :
    alookup l k = none ↔ k ∉ keysOf l := by
  induction l with
  | nil => simp [alookup, keysOf]
  | cons e t ih =>
    by_cases h : e.1 = k
    · simp [alookup, keysOf, h]
    · simp [alookup, keysOf, h, ih, Ne.symm h]

theorem alookup_isSome_iff {α : Type} (l : List (Nat × α)) (k : Nat) :
    (alookup l k).isSome = true ↔ k ∈ keysOf l := by
  rw [Option.isSome_iff_ne_none, ne_eq, alookup_eq_none_iff, not_not]

theorem alookup_mem {α : Type} {l : List (Nat × α)} {k : Nat} {v : α}
    (h : alookup l k = some v) : (k, v) ∈ l := by
  induction l with
  | nil => simp [alookup] at h
  | cons e t ih =>
    rcases e with ⟨a, b⟩
    by_cases he : a = k
    · subst he
      simp only [alookup, if_pos rfl] at h
      injection h with h
      subst h
      exact List.mem_cons_self _ _
    · rw [alookup, if_neg he] at h
      exact List.mem_cons_of_mem _ (ih h)

theorem alookup_of_mem_nodup {α : Type} {l : List (Nat × α)} {k : Nat} {v : α}
    (hnd : (keysOf l).Nodup) (h : (k, v) ∈ l) : alookup l k = some v := by
  induction l with
  | nil => simp at h
  | cons e t ih =>
    simp only [keysOf, List.map_cons, List.nodup_cons] at hnd
    rcases List.mem_cons.mp h with h | h
    · rw [← h]
      simp [alookup]
    · have hk : ¬ e.1 = k := fun hek =>
        hnd.1 (by rw [hek]; exact List.mem_map.mpr ⟨(k, v), h, rfl⟩)
      rw [alookup, if_neg hk]
      exact ih hnd.2 h

theorem alookup_aset_self {α : Type} (l : List (Nat × α)) (k : Nat) (v : α) :
    alookup (aset l k v) k = some v := by
  induction l with
  | nil => simp [aset, alookup]
  | cons e t ih =>
    by_cases h : e.1 = k <;> simp [aset, alookup, h, ih]

theorem alookup_aset_ne {α : Type} (l : List (Nat × α)) (k : Nat) (v : α)
    {k' : Nat} (h : k' ≠ k) : alookup (aset l k v) k' = alookup l k' := by
  induction l with
  | nil => simp [aset, alookup, Ne.symm h]
  | cons e t ih =>
    by_cases he : e.1 = k
    · simp [aset, alookup, he, Ne.symm h]
    · by_cases he' : e.1 = k' <;> simp [aset, alookup, he, he', ih, h]

theorem alookup_adel_ne {α : Type} (l : List (Nat × α)) (k : Nat)
    {k' : Nat} (h : k' ≠ k) : alookup (adel l k) k' = alookup l k' := by
  induction l with
  | nil => simp [adel]
  | cons e t ih =>
    by_cases he : e.1 = k
    · simp [adel, alookup, he, Ne.symm h]
    · by_cases he' : e.1 = k' <;> simp [adel, alookup, he, he', ih, h]

theorem keysOf_adel {α : Type} (l : List (Nat × α)) (k : Nat) :
    keysOf (adel l k) = (keysOf l).erase k := by
  induction l with
  | nil => simp [adel, keysOf]
  | cons e t ih =>
    by_cases he : e.1 = k
    · simp [adel, keysOf, he, List.erase_cons_head]
    · simp only [adel, if_neg he, keysOf, List.map_cons, List.erase_cons]
      simp only [keysOf] at ih
      simp [he, ih]

theorem alookup_adel_self {α : Type} (l : List (Nat × α)) (k : Nat)
    (hnd : (keysOf l).Nodup) : alookup (adel l k) k = none := by
  rw [alookup_eq_none_iff, keysOf_adel]
  exact (hnd.mem_erase_iff).not.mpr (by simp)

theorem keysOf_aset_mem {α : Type} {l : List (Nat × α)} {k : Nat} (v : α)
    (h : k ∈ keysOf l) : keysOf (aset l k v) = keysOf l := by
  induction l with
  | nil => simp [keysOf] at h
  | cons e t ih =>
    by_cases he : e.1 = k
    · simp [aset, keysOf, he]
    · have hk : k ∈ keysOf t := by
        rcases List.mem_cons.mp h with h | h
        · exact absurd h.symm he
        · exact h
      simp only [aset, if_neg he, keysOf, List.map_cons]
      simp only [keysOf] at ih
      rw [ih hk]

theorem aset_notmem {α : Type} {l : List (Nat × α)} {k : Nat} (v : α)
    (h : k ∉ keysOf l) : aset l k v = l ++ [(k, v)] := by
  induction l with
  | nil => simp [aset]
  | cons e t ih =>
    simp only [keysOf, List.map_cons, List.mem_cons, not_or] at h
    rw [aset, if_neg (fun hh : e.1 = k => h.1 hh.symm),
      ih (by simpa [keysOf] using h.2), List.cons_append]

theorem keysOf_append {α : Type} (l l' : List (Nat × α)) :
    keysOf (l ++ l') = keysOf l ++ keysOf l' := by
  simp [keysOf]

theorem nodup_keys_aset {α : Type} {l : List (Nat × α)} {k : Nat} (v : α)
    (hnd : (keysOf l).Nodup) : (keysOf (aset l k v)).Nodup := by
  by_cases h : k ∈ keysOf l
  · rwa [keysOf_aset_mem v h]
  · rw [aset_notmem v h, keysOf_append]
    refine List.Nodup.append hnd (by simp [keysOf]) ?_
    intro a ha hb
    simp only [keysOf, List.map_cons, List.map_nil, List.mem_singleton] at hb
    subst hb
    exact h ha

theorem nodup_keys_adel {α : Type} {l : List (Nat × α)} (k : Nat)
    (hnd : (keysOf l).Nodup) : (keysOf (adel l k)).Nodup := by
  rw [keysOf_adel]
  exact hnd.erase k

/-! ### Lemmas about the argmin computation -/

theorem getD_mem_of_lt {α : Type} {l : List α} {n : Nat} {d : α}
    (h : n < l.length) : l.getD n d ∈ l := by
  rw [List.getD_eq_getElem l d h]
  exact List.getElem_mem h

theorem getD_map_of_lt {α β : Type} (f : α → β) {l : List α} {j : Nat}
    (d : α) (d' : β) (hj : j < l.length) : (l.map f).getD j d' = f (l.getD j d) := by
  induction l generalizing j with
  | nil => simp at hj
  | cons a t ih =>
    cases j with
    | zero => simp
    | succ j' => simpa using ih (Nat.lt_of_succ_lt_succ hj)

theorem firstMinIdx_lt : ∀ {l : List ℚ}, l ≠ [] → firstMinIdx l < l.length
  | [], h => absurd rfl h
  | [_], _ => by simp [firstMinIdx]
  | x :: y :: t, _ => by
    simp only [firstMinIdx]
    by_cases hlt : (y :: t).getD (firstMinIdx (y :: t)) 0 < x
    · rw [if_pos hlt]
      have := firstMinIdx_lt (List.cons_ne_nil y t)
      simp only [List.length_cons] at this ⊢
      omega
    · rw [if_neg hlt]
      simp

theorem firstMinIdx_le : ∀ {l : List ℚ}, ∀ x ∈ l, l.getD (firstMinIdx l) 0 ≤ x
  | [], x, hx => by simp at hx
  | [a], x, hx => by
    rcases List.mem_singleton.mp hx with rfl
    simp [firstMinIdx]
  | a :: y :: t, x, hx => by
    rw [firstMinIdx]
    by_cases hlt : (y :: t).getD (firstMinIdx (y :: t)) 0 < a
    · simp only [hlt, if_pos, List.getD_cons_succ]
      rcases List.mem_cons.mp hx with rfl | hx
      · exact le_of_lt hlt
      · exact firstMinIdx_le x hx
    · simp only [hlt, if_neg, not_false_iff, List.getD_cons_zero]
      rcases List.mem_cons.mp hx with rfl | hx
      · exact le_refl x
      · exact le_trans (not_lt.mp hlt) (firstMinIdx_le x hx)

theorem subFlat_length (D : Nat → Nat → ℚ) (rows cols : List Nat) :
    (subFlat D rows cols).length = rows.length * cols.length := by
  induction rows with
  | nil => simp [subFlat]
  | cons r rs ih =>
    simp only [subFlat] at ih
    simp [subFlat, ih, Nat.succ_mul, Nat.add_comm]

theorem subFlat_getD (D : Nat → Nat → ℚ) {rows cols : List Nat} {i j : Nat}
    (hi : i < rows.length) (hj : j < cols.length) :
    (subFlat D rows cols).getD (i * cols.length + j) 0 =
      D (rows.getD i 0) (cols.getD j 0) := by
  induction rows generalizing i with
  | nil => simp at hi
  | cons r rs ih =>
    cases i with
    | zero =>
      simp only [subFlat, List.flatMap_cons, Nat.zero_mul, Nat.zero_add,
        List.getD_cons_zero]
      rw [List.getD_append _ _ _ _ (by simpa using hj)]
      exact getD_map_of_lt (D r) 0 0 hj
    | succ i' =>
      have hi' : i' < rs.length := Nat.lt_of_succ_lt_succ hi
      simp only [subFlat, List.flatMap_cons, List.getD_cons_succ]
      rw [show (i' + 1) * cols.length + j = cols.length + (i' * cols.length + j) by ring,
        List.getD_append_right _ _ _ _ (by simp)]
      simp only [List.length_map, Nat.add_sub_cancel_left]
      exact ih hi'

theorem mem_subFlat {D : Nat → Nat → ℚ} {rows cols : List Nat} {r c : Nat}
    (hr : r ∈ rows) (hc : c ∈ cols) : D r c ∈ subFlat D rows cols :=
  List.mem_flatMap.mpr ⟨r, hr, List.mem_map.mpr ⟨c, hc, rfl⟩⟩

theorem pickPair_bound {D : Nat → Nat → ℚ} {rows cols : List Nat}
    (hr : rows ≠ []) (hc : cols ≠ []) :
    (pickPair D rows cols).1 < rows.length ∧ (pickPair D rows cols).2 < cols.length := by
  have hcl : 0 < cols.length := List.length_pos.mpr hc
  have hsub : subFlat D rows cols ≠ [] := by
    intro h
    have := subFlat_length D rows cols
    rw [h] at this
    simp only [List.length_nil] at this
    rcases Nat.mul_eq_zero.mp this.symm with h0 | h0
    · exact hr (List.length_eq_zero.mp h0)
    · exact hc (List.length_eq_zero.mp h0)
  have hk : firstMinIdx (subFlat D rows cols) < rows.length * cols.length := by
    rw [← subFlat_length D rows cols]
    exact firstMinIdx_lt hsub
  constructor
  · exact (Nat.div_lt_iff_lt_mul hcl).mpr hk
  · exact Nat.mod_lt _ hcl

theorem pickPair_min {D : Nat → Nat → ℚ} {rows cols : List Nat}
    (hr : rows ≠ []) (hc : cols ≠ []) {r c : Nat}
    (hrm : r ∈ rows) (hcm : c ∈ cols) :
    D (rows.getD (pickPair D rows cols).1 0) (cols.getD (pickPair D rows cols).2 0) ≤ D r c := by
  have hb := pickPair_bound (D := D) hr hc
  have hk : (pickPair D rows cols).1 * cols.length + (pickPair D rows cols).2 =
      firstMinIdx (subFlat D rows cols) := by
    simp only [pickPair]
    rw [Nat.mul_comm]
    exact Nat.div_add_mod _ _
  have := subFlat_getD D hb.1 hb.2
  rw [hk] at this
  rw [← this]
  exact firstMinIdx_le _ (mem_subFlat hrm hcm)

/-! ### Lemmas about the matching loop -/

theorem matchLoop_succ_commit {D : Nat → Nat → ℚ} {fuel : Nat} {rows cols : List Nat}
    (hne : 0 < rows.length ∧ 0 < cols.length)
    (hlt : D (rows.getD (pickPair D rows cols).1 0) (cols.getD (pickPair D rows cols).2 0)
      < THRESH_SQ) :
    matchLoop D (fuel + 1) rows cols =
      ((rows.getD (pickPair D rows cols).1 0, cols.getD (pickPair D rows cols).2 0) ::
         (matchLoop D fuel (rows.eraseIdx (pickPair D rows cols).1)
           (cols.eraseIdx (pickPair D rows cols).2)).1,
       (matchLoop D fuel (rows.eraseIdx (pickPair D rows cols).1)
         (cols.eraseIdx (pickPair D rows cols).2)).2) := by
  simp only [matchLoop, if_pos hne, if_pos hlt]

theorem matchLoop_succ_stop {D : Nat → Nat → ℚ} {fuel : Nat} {rows cols : List Nat}
    (hne : 0 < rows.length ∧ 0 < cols.length)
    (hlt : ¬ D (rows.getD (pickPair D rows cols).1 0) (cols.getD (pickPair D rows cols).2 0)
      < THRESH_SQ) :
    matchLoop D (fuel + 1) rows cols = ([], rows, cols) := by
  simp only [matchLoop, if_pos hne, if_neg hlt]

theorem matchLoop_succ_empty {D : Nat → Nat → ℚ} {fuel : Nat} {rows cols : List Nat}
    (hne : ¬ (0 < rows.length ∧ 0 < cols.length)) :
    matchLoop D (fuel + 1) rows cols = ([], rows, cols) := by
  simp only [matchLoop, if_neg hne]

theorem perm_cons_getD_eraseIdx {l : List Nat} :
    ∀ {i : Nat}, i < l.length → l.Perm (l.getD i 0 :: l.eraseIdx i) := by
  induction l with
  | nil => intro i h; simp at h
  | cons a t ih =>
    intro i h
    cases i with
    | zero => simp
    | succ i' =>
      have h' : i' < t.length := Nat.lt_of_succ_lt_succ h
      have step1 : (a :: t).Perm (a :: (t.getD i' 0 :: t.eraseIdx i')) := (ih h').cons a
      have step2 : (a :: (t.getD i' 0 :: t.eraseIdx i')).Perm
          (t.getD i' 0 :: a :: t.eraseIdx i') := List.Perm.swap _ _ _
      simpa [List.eraseIdx_cons_succ, List.getD_cons_succ] using step1.trans step2

theorem matchLoop_perm_rows (D : Nat → Nat → ℚ) :
    ∀ (fuel : Nat) (rows cols : List Nat),
      ((matchLoop D fuel rows cols).1.map Prod.fst ++ (matchLoop D fuel rows cols).2.1).Perm
        rows := by
  intro fuel
  induction fuel with
  | zero => intro rows cols; simp [matchLoop]
  | succ fuel ih =>
    intro rows cols
    by_cases hne : 0 < rows.length ∧ 0 < cols.length
    · have hr : rows ≠ [] := List.length_pos.mp hne.1
      have hc : cols ≠ [] := List.length_pos.mp hne.2
      by_cases hlt : D (rows.getD (pickPair D rows cols).1 0)
          (cols.getD (pickPair D rows cols).2 0) < THRESH_SQ
      · rw [matchLoop_succ_commit hne hlt]
        simp only [List.map_cons, List.cons_append]
        exact ((ih _ _).cons _).trans (perm_cons_getD_eraseIdx (pickPair_bound hr hc).1).symm
      · rw [matchLoop_succ_stop hne hlt]
        simp
    · rw [matchLoop_succ_empty hne]
      simp

theorem matchLoop_perm_cols (D : Nat → Nat → ℚ) :
    ∀ (fuel : Nat) (rows cols : List Nat),
      ((matchLoop D fuel rows cols).1.map Prod.snd ++ (matchLoop D fuel rows cols).2.2).Perm
        cols := by
  intro fuel
  induction fuel with
  | zero => intro rows cols; simp [matchLoop]
  | succ fuel ih =>
    intro rows cols
    by_cases hne : 0 < rows.length ∧ 0 < cols.length
    · have hr : rows ≠ [] := List.length_pos.mp hne.1
      have hc : cols ≠ [] := List.length_pos.mp hne.2
      by_cases hlt : D (rows.getD (pickPair D rows cols).1 0)
          (cols.getD (pickPair D rows cols).2 0) < THRESH_SQ
      · rw [matchLoop_succ_commit hne hlt]
        simp only [List.map_cons, List.cons_append]
        exact ((ih _ _).cons _).trans (perm_cons_getD_eraseIdx (pickPair_bound hr hc).2).symm
      · rw [matchLoop_succ_stop hne hlt]
        simp
    · rw [matchLoop_succ_empty hne]
      simp

theorem matchLoop_matches (D : Nat → Nat → ℚ) :
    ∀ (fuel : Nat) (rows cols : List Nat) (rc : Nat × Nat),
      rc ∈ (matchLoop D fuel rows cols).1 →
      rc.1 ∈ rows ∧ rc.2 ∈ cols ∧ D rc.1 rc.2 < THRESH_SQ := by
  intro fuel
  induction fuel with
  | zero => intro rows cols rc h; simp [matchLoop] at h
  | succ fuel ih =>
    intro rows cols rc h
    by_cases hne : 0 < rows.length ∧ 0 < cols.length
    · have hr : rows ≠ [] := List.length_pos.mp hne.1
      have hc : cols ≠ [] := List.length_pos.mp hne.2
      have hb := pickPair_bound (D := D) hr hc
      by_cases hlt : D (rows.getD (pickPair D rows cols).1 0)
          (cols.getD (pickPair D rows cols).2 0) < THRESH_SQ
      · rw [matchLoop_succ_commit hne hlt] at h
        rcases List.mem_cons.mp h with rfl | h
        · exact ⟨getD_mem_of_lt hb.1, getD_mem_of_lt hb.2, hlt⟩
        · obtain ⟨h1, h2, h3⟩ := ih _ _ _ h
          exact ⟨List.eraseIdx_subset _ _ h1, List.eraseIdx_subset _ _ h2, h3⟩
      · rw [matchLoop_succ_stop hne hlt] at h
        simp at h
    · rw [matchLoop_succ_empty hne] at h
      simp at h

theorem nodup_erase_getD_eq_eraseIdx {l : List Nat} (hnd : l.Nodup) :
    ∀ {i : Nat}, i < l.length → l.erase (l.getD i 0) = l.eraseIdx i := by
  induction l with
  | nil => intro i h; simp at h
  | cons a t ih =>
    intro i h
    cases i with
    | zero => simp
    | succ i' =>
      have h' : i' < t.length := Nat.lt_of_succ_lt_succ h
      have ha : ¬ a = t.getD i' 0 := by
        intro hh
        exact (List.nodup_cons.mp hnd).1 (hh ▸ getD_mem_of_lt h')
      rw [List.getD_cons_succ, List.eraseIdx_cons_succ, List.erase_cons]
      rw [if_neg (show ¬ (a == t.getD i' 0) = true by simpa using ha)]
      exact congrArg (List.cons a) (ih (List.nodup_cons.mp hnd).2 h')

theorem matchLoop_spec (D : Nat → Nat → ℚ) :
    ∀ (fuel : Nat) (rows cols : List Nat), rows.length ≤ fuel →
      rows.Nodup → cols.Nodup →
      SpecGreedy D rows cols (matchLoop D fuel rows cols).1
        (matchLoop D fuel rows cols).2.1 (matchLoop D fuel rows cols).2.2 := by
  intro fuel
  induction fuel with
  | zero =>
    intro rows cols hfuel _ _
    have : rows = [] := List.length_eq_zero.mp (Nat.le_zero.mp hfuel)
    simp only [matchLoop]
    exact SpecGreedy.exhausted (Or.inl this)
  | succ fuel ih =>
    intro rows cols hfuel hnr hnc
    by_cases hne : 0 < rows.length ∧ 0 < cols.length
    · have hr : rows ≠ [] := List.length_pos.mp hne.1
      have hc : cols ≠ [] := List.length_pos.mp hne.2
      have hb := pickPair_bound (D := D) hr hc
      by_cases hlt : D (rows.getD (pickPair D rows cols).1 0)
          (cols.getD (pickPair D rows cols).2 0) < THRESH_SQ
      · rw [matchLoop_succ_commit hne hlt]
        refine SpecGreedy.commit (getD_mem_of_lt hb.1) (getD_mem_of_lt hb.2) hlt
          (fun r hrm c hcm => pickPair_min hr hc hrm hcm) ?_
        rw [nodup_erase_getD_eq_eraseIdx hnr hb.1, nodup_erase_getD_eq_eraseIdx hnc hb.2]
        refine ih _ _ ?_ (hnr.sublist (List.eraseIdx_sublist _ _))
          (hnc.sublist (List.eraseIdx_sublist _ _))
        rw [List.length_eraseIdx_of_lt hb.1]
        omega
      · rw [matchLoop_succ_stop hne hlt]
        refine SpecGreedy.stop (fun r hrm c hcm => ?_)
        exact le_trans (not_lt.mp hlt) (pickPair_min hr hc hrm hcm)
    · rw [matchLoop_succ_empty hne]
      refine SpecGreedy.exhausted ?_
      by_cases h0 : rows = []
      · exact Or.inl h0
      · right
        by_contra hc0
        exact hne ⟨List.length_pos.mpr h0, List.length_pos.mpr hc0⟩

/-! ### Lemmas about seeding new tracks -/

theorem alookup_append_left {α : Type} {l : List (Nat × α)} (l' : List (Nat × α))
    {k : Nat} (h : k ∈ keysOf l) : alookup (l ++ l') k = alookup l k := by
  induction l with
  | nil => simp [keysOf] at h
  | cons e t ih =>
    by_cases he : e.1 = k
    · simp [alookup, he]
    · have : k ∈ keysOf t := by
        rcases List.mem_cons.mp h with h | h
        · exact absurd h.symm he
        · exact h
      simp [alookup, he, ih this]

theorem alookup_append_right {α : Type} {l : List (Nat × α)} (l' : List (Nat × α))
    {k : Nat} (h : k ∉ keysOf l) : alookup (l ++ l') k = alookup l' k := by
  induction l with
  | nil => simp
  | cons e t ih =>
    simp only [keysOf, List.map_cons, List.mem_cons, not_or] at h
    simp only [List.cons_append, alookup,
      if_neg (fun hh : e.1 = k => h.1 hh.symm)]
    exact ih (by simpa [keysOf] using h.2)

theorem seededPaths_length (n : Nat) (ds : List Obs) :
    (seededPaths n ds).length = ds.length := by
  induction ds generalizing n with
  | nil => simp [seededPaths]
  | cons d ds ih => simp [seededPaths, ih]

theorem seededDis_length (n : Nat) (ds : List Obs) :
    (seededDis n ds).length = ds.length := by
  induction ds generalizing n with
  | nil => simp [seededDis]
  | cons d ds ih => simp [seededDis, ih]

theorem keysOf_seededPaths (n : Nat) (ds : List Obs) :
    keysOf (seededPaths n ds) = List.range' n ds.length := by
  induction ds generalizing n with
  | nil => simp [seededPaths, keysOf]
  | cons d ds ih =>
    simp only [seededPaths, keysOf, List.map_cons, List.length_cons, List.range'_succ]
    simp only [keysOf] at ih
    rw [ih]

theorem keysOf_seededDis (n : Nat) (ds : List Obs) :
    keysOf (seededDis n ds) = List.range' n ds.length := by
  induction ds generalizing n with
  | nil => simp [seededDis, keysOf]
  | cons d ds ih =>
    simp only [seededDis, keysOf, List.map_cons, List.length_cons, List.range'_succ]
    simp only [keysOf] at ih
    rw [ih]

theorem alookup_seededPaths {ds : List Obs} :
    ∀ {n j : Nat}, j < ds.length →
      alookup (seededPaths n ds) (n + j) = some [ds.getD j []] := by
  induction ds with
  | nil => intro n j h; simp at h
  | cons d ds ih =>
    intro n j h
    cases j with
    | zero => simp [seededPaths, alookup]
    | succ j' =>
      have : n + (j' + 1) ≠ n := by omega
      simp only [seededPaths, alookup, if_neg (fun hh : n = n + (j' + 1) => this hh.symm)]
      rw [show n + (j' + 1) = (n + 1) + j' by omega]
      simpa using ih (Nat.lt_of_succ_lt_succ h)

theorem alookup_seededDis {ds : List Obs} :
    ∀ {n j : Nat}, j < ds.length → alookup (seededDis n ds) (n + j) = some 0 := by
  induction ds with
  | nil => intro n j h; simp at h
  | cons d ds ih =>
    intro n j h
    cases j with
    | zero => simp [seededDis, alookup]
    | succ j' =>
      have : n + (j' + 1) ≠ n := by omega
      simp only [seededDis, alookup, if_neg (fun hh : n = n + (j' + 1) => this hh.symm)]
      rw [show n + (j' + 1) = (n + 1) + j' by omega]
      exact ih (Nat.lt_of_succ_lt_succ h)

theorem seedTracks_eq {ds : List Obs} :
    ∀ {P : List (Nat × List Obs)} {Dd : List (Nat × Nat)} {n : Nat},
      (∀ k ∈ keysOf P, k < n) → (∀ k ∈ keysOf Dd, k < n) →
      seedTracks (P, Dd, n) ds =
        (P ++ seededPaths n ds, Dd ++ seededDis n ds, n + ds.length) := by
  induction ds with
  | nil => intro P Dd n _ _; simp [seedTracks, seededPaths, seededDis]
  | cons d ds ih =>
    intro P Dd n hP hD
    have hPn : n ∉ keysOf P := fun h => lt_irrefl n (hP n h)
    have hDn : n ∉ keysOf Dd := fun h => lt_irrefl n (hD n h)
    have step : seedTracks (P, Dd, n) (d :: ds) =
        seedTracks (P ++ [(n, [d])], Dd ++ [(n, 0)], n + 1) ds := by
      simp [seedTracks, aset_notmem _ hPn, aset_notmem _ hDn]
    rw [step, ih (fun k hk => ?_) (fun k hk => ?_)]
    · simp [seededPaths, seededDis, List.append_assoc]
      omega
    · rcases (by simpa [keysOf] using hk : k ∈ keysOf P ∨ k = n) with h | h
      · exact Nat.lt_succ_of_lt (hP k h)
      · omega
    · rcases (by simpa [keysOf] using hk : k ∈ keysOf Dd ∨ k = n) with h | h
      · exact Nat.lt_succ_of_lt (hD k h)
      · omega

/-! ### Lemmas about applying the committed matches -/

theorem applyMatches_lookup_notmem {object_ids : List Nat} {dets : List Obs} :
    ∀ {ms : List (Nat × Nat)} {st : List (Nat × List Obs) × List (Nat × Nat)} {id : Nat},
      id ∉ ms.map (fun rc => object_ids.getD rc.1 0) →
      alookup (applyMatches object_ids dets st ms).1 id = alookup st.1 id ∧
      alookup (applyMatches object_ids dets st ms).2 id = alookup st.2 id := by
  intro ms
  induction ms with
  | nil => intro st id _; exact ⟨rfl, rfl⟩
  | cons rc ms ih =>
    intro st id h
    simp only [List.map_cons, List.mem_cons, not_or] at h
    have step := @ih
      (aset st.1 (object_ids.getD rc.1 0)
        (((alookup st.1 (object_ids.getD rc.1 0)).getD []) ++ [dets.getD rc.2 []]),
       aset st.2 (object_ids.getD rc.1 0) 0) id h.2
    refine ⟨step.1.trans ?_, step.2.trans ?_⟩
    · exact alookup_aset_ne _ _ _ h.1
    · exact alookup_aset_ne _ _ _ h.1

theorem applyMatches_lookup_mem {object_ids : List Nat} {dets : List Obs} :
    ∀ {ms : List (Nat × Nat)} {st : List (Nat × List Obs) × List (Nat × Nat)}
      {rc : Nat × Nat}, rc ∈ ms →
      (ms.map (fun rc => object_ids.getD rc.1 0)).Nodup →
      alookup (applyMatches object_ids dets st ms).1 (object_ids.getD rc.1 0) =
        some (((alookup st.1 (object_ids.getD rc.1 0)).getD []) ++ [dets.getD rc.2 []]) ∧
      alookup (applyMatches object_ids dets st ms).2 (object_ids.getD rc.1 0) = some 0 := by
  intro ms
  induction ms with
  | nil => intro st rc h; simp at h
  | cons rc0 ms ih =>
    intro st rc hmem hnd
    simp only [List.map_cons, List.nodup_cons] at hnd
    rcases List.mem_cons.mp hmem with rfl | hmem
    · have step := @applyMatches_lookup_notmem object_ids dets ms
        (aset st.1 (object_ids.getD rc.1 0)
          (((alookup st.1 (object_ids.getD rc.1 0)).getD []) ++ [dets.getD rc.2 []]),
         aset st.2 (object_ids.getD rc.1 0) 0) (object_ids.getD rc.1 0) hnd.1
      refine ⟨step.1.trans ?_, step.2.trans ?_⟩
      · exact alookup_aset_self _ _ _
      · exact alookup_aset_self _ _ _
    · have hne : object_ids.getD rc.1 0 ≠ object_ids.getD rc0.1 0 := by
        intro hh
        exact hnd.1 (hh ▸ List.mem_map.mpr ⟨rc, hmem, rfl⟩)
      have step := @ih
        (aset st.1 (object_ids.getD rc0.1 0)
          (((alookup st.1 (object_ids.getD rc0.1 0)).getD []) ++ [dets.getD rc0.2 []]),
         aset st.2 (object_ids.getD rc0.1 0) 0) rc hmem hnd.2
      refine ⟨step.1.trans ?_, step.2⟩
      rw [alookup_aset_ne _ _ _ hne]

theorem applyMatches_keys {object_ids : List Nat} {dets : List Obs} :
    ∀ {ms : List (Nat × Nat)} {st : List (Nat × List Obs) × List (Nat × Nat)},
      (∀ rc ∈ ms, object_ids.getD rc.1 0 ∈ keysOf st.1 ∧
        object_ids.getD rc.1 0 ∈ keysOf st.2) →
      keysOf (applyMatches object_ids dets st ms).1 = keysOf st.1 ∧
      keysOf (applyMatches object_ids dets st ms).2 = keysOf st.2 := by
  intro ms
  induction ms with
  | nil => intro st _; exact ⟨rfl, rfl⟩
  | cons rc0 ms ih =>
    intro st h
    have h0 := h rc0 (List.mem_cons_self _ _)
    have step := @ih
      (aset st.1 (object_ids.getD rc0.1 0)
        (((alookup st.1 (object_ids.getD rc0.1 0)).getD []) ++ [dets.getD rc0.2 []]),
       aset st.2 (object_ids.getD rc0.1 0) 0) (fun rc hrc => by
        rw [keysOf_aset_mem _ h0.1, keysOf_aset_mem _ h0.2]
        exact h rc (List.mem_cons_of_mem _ hrc))
    refine ⟨step.1.trans ?_, step.2.trans ?_⟩
    · exact keysOf_aset_mem _ h0.1
    · exact keysOf_aset_mem _ h0.2

/-! ### Lemmas about the disappearance bookkeeping -/

theorem adel_aset {α : Type} (l : List (Nat × α)) (k : Nat) (v : α) :
    adel (aset l k v) k = adel l k := by
  induction l with
  | nil => simp [aset, adel]
  | cons e t ih =>
    by_cases he : e.1 = k <;> simp [aset, adel, he, ih]

theorem ageOne_none {mx : Nat} {st : List (Nat × List Obs) × List (Nat × Nat)} {id : Nat}
    (h : alookup st.2 id = none) : ageOne mx st id = st := by
  simp [ageOne, h]

theorem ageOne_keep {mx : Nat} {st : List (Nat × List Obs) × List (Nat × Nat)} {id c : Nat}
    (h : alookup st.2 id = some c) (hle : ¬ mx < c + 1) :
    ageOne mx st id = (st.1, aset st.2 id (c + 1)) := by
  simp [ageOne, h, hle]

theorem ageOne_del {mx : Nat} {st : List (Nat × List Obs) × List (Nat × Nat)} {id c : Nat}
    (h : alookup st.2 id = some c) (hgt : mx < c + 1) :
    ageOne mx st id = (adel st.1 id, adel st.2 id) := by
  simp [ageOne, h, hgt, adel_aset]

theorem ageOne_lookup_ne {mx : Nat} {st : List (Nat × List Obs) × List (Nat × Nat)}
    {id' id : Nat} (h : id ≠ id') :
    alookup (ageOne mx st id').1 id = alookup st.1 id ∧
    alookup (ageOne mx st id').2 id = alookup st.2 id := by
  cases hc : alookup st.2 id' with
  | none => simp [ageOne_none hc]
  | some c =>
    by_cases hgt : mx < c + 1
    · rw [ageOne_del hc hgt]
      exact ⟨alookup_adel_ne _ _ h, alookup_adel_ne _ _ h⟩
    · rw [ageOne_keep hc hgt]
      exact ⟨rfl, alookup_aset_ne _ _ _ h⟩

theorem ageOne_nodup {mx : Nat} {st : List (Nat × List Obs) × List (Nat × Nat)} {id : Nat}
    (h1 : (keysOf st.1).Nodup) (h2 : (keysOf st.2).Nodup) :
    (keysOf (ageOne mx st id).1).Nodup ∧ (keysOf (ageOne mx st id).2).Nodup := by
  cases hc : alookup st.2 id with
  | none => simp [ageOne_none hc, h1, h2]
  | some c =>
    by_cases hgt : mx < c + 1
    · rw [ageOne_del hc hgt]
      exact ⟨nodup_keys_adel _ h1, nodup_keys_adel _ h2⟩
    · rw [ageOne_keep hc hgt]
      exact ⟨h1, nodup_keys_aset _ h2⟩

theorem ageOne_keys_sync {mx : Nat} {st : List (Nat × List Obs) × List (Nat × Nat)} {id : Nat}
    (h : keysOf st.1 = keysOf st.2) :
    keysOf (ageOne mx st id).1 = keysOf (ageOne mx st id).2 := by
  cases hc : alookup st.2 id with
  | none => simp [ageOne_none hc, h]
  | some c =>
    by_cases hgt : mx < c + 1
    · rw [ageOne_del hc hgt]
      simp [keysOf_adel, h]
    · rw [ageOne_keep hc hgt]
      have hm : id ∈ keysOf st.2 := (alookup_isSome_iff _ _).mp (by simp [hc])
      rw [keysOf_aset_mem _ hm, h]

theorem ageOne_keys_subset {mx : Nat} {st : List (Nat × List Obs) × List (Nat × Nat)}
    {id : Nat} :
    keysOf (ageOne mx st id).1 ⊆ keysOf st.1 ∧ keysOf (ageOne mx st id).2 ⊆ keysOf st.2 := by
  cases hc : alookup st.2 id with
  | none => simp [ageOne_none hc, List.Subset.refl]
  | some c =>
    by_cases hgt : mx < c + 1
    · rw [ageOne_del hc hgt]
      exact ⟨by rw [keysOf_adel]; exact List.erase_subset _ _,
             by rw [keysOf_adel]; exact List.erase_subset _ _⟩
    · rw [ageOne_keep hc hgt]
      have hm : id ∈ keysOf st.2 := (alookup_isSome_iff _ _).mp (by simp [hc])
      rw [keysOf_aset_mem _ hm]
      exact ⟨List.Subset.refl _, List.Subset.refl _⟩

theorem ageAll_lookup_notmem {mx : Nat} :
    ∀ {ids : List Nat} {st : List (Nat × List Obs) × List (Nat × Nat)} {id : Nat},
      id ∉ ids →
      alookup (ageAll mx st ids).1 id = alookup st.1 id ∧
      alookup (ageAll mx st ids).2 id = alookup st.2 id := by
  intro ids
  induction ids with
  | nil => intro st id _; exact ⟨rfl, rfl⟩
  | cons id0 ids ih =>
    intro st id h
    simp only [List.mem_cons, not_or] at h
    have step := @ih (ageOne mx st id0) id h.2
    have base := @ageOne_lookup_ne mx st id0 id h.1
    exact ⟨step.1.trans base.1, step.2.trans base.2⟩

theorem ageAll_lookup_del {mx : Nat} :
    ∀ {ids : List Nat} {st : List (Nat × List Obs) × List (Nat × Nat)} {id c : Nat},
      id ∈ ids → ids.Nodup → (keysOf st.1).Nodup → (keysOf st.2).Nodup →
      alookup st.2 id = some c → mx < c + 1 →
      alookup (ageAll mx st ids).1 id = none ∧
      alookup (ageAll mx st ids).2 id = none := by
  intro ids
  induction ids with
  | nil => intro st id c h; simp at h
  | cons id0 ids ih =>
    intro st id c hmem hnd h1 h2 hc hgt
    have hunfold : ageAll mx st (id0 :: ids) = ageAll mx (ageOne mx st id0) ids := rfl
    rcases List.mem_cons.mp hmem with rfl | hmem
    · rw [hunfold, ageOne_del hc hgt]
      have hrest := @ageAll_lookup_notmem mx ids
        (adel st.1 id, adel st.2 id) id (List.nodup_cons.mp hnd).1
      refine ⟨hrest.1.trans ?_, hrest.2.trans ?_⟩
      · exact alookup_adel_self _ _ h1
      · exact alookup_adel_self _ _ h2
    · have hne : id ≠ id0 := by
        intro hh
        exact (List.nodup_cons.mp hnd).1 (hh ▸ hmem)
      have hpres := @ageOne_lookup_ne mx st id0 id hne
      have hnodups := @ageOne_nodup mx st id0 h1 h2
      exact ih hmem (List.nodup_cons.mp hnd).2 hnodups.1 hnodups.2
        (hpres.2.trans hc) hgt

theorem ageAll_lookup_keep {mx : Nat} :
    ∀ {ids : List Nat} {st : List (Nat × List Obs) × List (Nat × Nat)} {id c : Nat},
      id ∈ ids → ids.Nodup → (keysOf st.1).Nodup → (keysOf st.2).Nodup →
      alookup st.2 id = some c → ¬ mx < c + 1 →
      alookup (ageAll mx st ids).1 id = alookup st.1 id ∧
      alookup (ageAll mx st ids).2 id = some (c + 1) := by
  intro ids
  induction ids with
  | nil => intro st id c h; simp at h
  | cons id0 ids ih =>
    intro st id c hmem hnd h1 h2 hc hle
    have hunfold : ageAll mx st (id0 :: ids) = ageAll mx (ageOne mx st id0) ids := rfl
    rcases List.mem_cons.mp hmem with rfl | hmem
    · rw [hunfold, ageOne_keep hc hle]
      have hrest := @ageAll_lookup_notmem mx ids
        (st.1, aset st.2 id (c + 1)) id (List.nodup_cons.mp hnd).1
      refine ⟨hrest.1, hrest.2.trans ?_⟩
      exact alookup_aset_self _ _ _
    · have hne : id ≠ id0 := by
        intro hh
        exact (List.nodup_cons.mp hnd).1 (hh ▸ hmem)
      have hpres := @ageOne_lookup_ne mx st id0 id hne
      have hnodups := @ageOne_nodup mx st id0 h1 h2
      have step := ih hmem (List.nodup_cons.mp hnd).2 hnodups.1 hnodups.2
        (hpres.2.trans hc) hle
      exact ⟨step.1.trans hpres.1, step.2⟩

theorem ageAll_nodup {mx : Nat} :
    ∀ {ids : List Nat} {st : List (Nat × List Obs) × List (Nat × Nat)},
      (keysOf st.1).Nodup → (keysOf st.2).Nodup →
      (keysOf (ageAll mx st ids).1).Nodup ∧ (keysOf (ageAll mx st ids).2).Nodup := by
  intro ids
  induction ids with
  | nil => intro st h1 h2; exact ⟨h1, h2⟩
  | cons id0 ids ih =>
    intro st h1 h2
    have hnodups := @ageOne_nodup mx st id0 h1 h2
    exact ih hnodups.1 hnodups.2

theorem ageAll_keys_sync {mx : Nat} :
    ∀ {ids : List Nat} {st : List (Nat × List Obs) × List (Nat × Nat)},
      keysOf st.1 = keysOf st.2 →
      keysOf (ageAll mx st ids).1 = keysOf (ageAll mx st ids).2 := by
  intro ids
  induction ids with
  | nil => intro st h; exact h
  | cons id0 ids ih =>
    intro st h
    exact ih (ageOne_keys_sync h)

theorem ageAll_keys_subset {mx : Nat} :
    ∀ {ids : List Nat} {st : List (Nat × List Obs) × List (Nat × Nat)},
      keysOf (ageAll mx st ids).1 ⊆ keysOf st.1 ∧
      keysOf (ageAll mx st ids).2 ⊆ keysOf st.2 := by
  intro ids
  induction ids with
  | nil => intro st; exact ⟨List.Subset.refl _, List.Subset.refl _⟩
  | cons id0 ids ih =>
    intro st
    have step := @ih (ageOne mx st id0)
    have base := @ageOne_keys_subset mx st id0
    exact ⟨step.1.trans base.1, step.2.trans base.2⟩

theorem ageAll_counter_cases {mx : Nat} :
    ∀ {ids : List Nat} {st : List (Nat × List Obs) × List (Nat × Nat)} {id c' : Nat},
      (keysOf st.1).Nodup → (keysOf st.2).Nodup →
      alookup (ageAll mx st ids).2 id = some c' →
      (id ∉ ids ∧ alookup st.2 id = some c') ∨ c' ≤ mx := by
  intro ids
  induction ids with
  | nil => intro st id c' _ _ h; exact Or.inl ⟨by simp, h⟩
  | cons id0 ids ih =>
    intro st id c' h1 h2 h
    have hnodups := @ageOne_nodup mx st id0 h1 h2
    rcases ih hnodups.1 hnodups.2 h with ⟨hnot, hl⟩ | hle
    · by_cases hid : id = id0
      · subst hid
        cases hc : alookup st.2 id with
        | none =>
          rw [ageOne_none hc] at hl
          rw [hc] at hl
          cases hl
        | some c =>
          by_cases hgt : mx < c + 1
          · rw [ageOne_del hc hgt] at hl
            rw [alookup_adel_self _ _ h2] at hl
            cases hl
          · rw [ageOne_keep hc hgt] at hl
            rw [alookup_aset_self _ _ _] at hl
            injection hl with hl
            omega
      · have hpres := @ageOne_lookup_ne mx st id0 id hid
        exact Or.inl ⟨by simp [hid, hnot], hpres.2.symm.trans hl⟩
    · exact Or.inr hle

/-! ### Branch equations for `update` -/

theorem update_empty (t : PathTracker) :
    update t [] = some { t with
      paths := (ageAll t.max_disappeared (t.paths, t.disappeared) (keysOf t.disappeared)).1,
      disappeared :=
        (ageAll t.max_disappeared (t.paths, t.disappeared) (keysOf t.disappeared)).2 } := by
  simp [update]

theorem update_coldstart {t : PathTracker} {dets : List Obs}
    (hd : dets.length ≠ 0) (hp : t.paths.length = 0) :
    update t dets = some { t with
      paths := (seedTracks (t.paths, t.disappeared, t.next_id) dets).1,
      disappeared := (seedTracks (t.paths, t.disappeared, t.next_id) dets).2.1,
      next_id := (seedTracks (t.paths, t.disappeared, t.next_id) dets).2.2 } := by
  simp [update, hd, hp]

theorem update_general {t : PathTracker} {dets : List Obs}
    (hd : dets.length ≠ 0) (hp : t.paths.length ≠ 0) (hok : distOk t dets = true) :
    update t dets = some { t with
      paths := (ageAll t.max_disappeared
        ((seedTracks
            ((applyMatches (keysOf t.paths) dets (t.paths, t.disappeared)
                (matchResult t dets).1).1,
             (applyMatches (keysOf t.paths) dets (t.paths, t.disappeared)
                (matchResult t dets).1).2,
             t.next_id) ((matchResult t dets).2.2.map (fun c => dets.getD c []))).1,
         (seedTracks
            ((applyMatches (keysOf t.paths) dets (t.paths, t.disappeared)
                (matchResult t dets).1).1,
             (applyMatches (keysOf t.paths) dets (t.paths, t.disappeared)
                (matchResult t dets).1).2,
             t.next_id) ((matchResult t dets).2.2.map (fun c => dets.getD c []))).2.1)
        ((matchResult t dets).2.1.map (fun r => (keysOf t.paths).getD r 0))).1,
      disappeared := (ageAll t.max_disappeared
        ((seedTracks
            ((applyMatches (keysOf t.paths) dets (t.paths, t.disappeared)
                (matchResult t dets).1).1,
             (applyMatches (keysOf t.paths) dets (t.paths, t.disappeared)
                (matchResult t dets).1).2,
             t.next_id) ((matchResult t dets).2.2.map (fun c => dets.getD c []))).1,
         (seedTracks
            ((applyMatches (keysOf t.paths) dets (t.paths, t.disappeared)
                (matchResult t dets).1).1,
             (applyMatches (keysOf t.paths) dets (t.paths, t.disappeared)
                (matchResult t dets).1).2,
             t.next_id) ((matchResult t dets).2.2.map (fun c => dets.getD c []))).2.1)
        ((matchResult t dets).2.1.map (fun r => (keysOf t.paths).getD r 0))).2,
      next_id := (seedTracks
            ((applyMatches (keysOf t.paths) dets (t.paths, t.disappeared)
                (matchResult t dets).1).1,
             (applyMatches (keysOf t.paths) dets (t.paths, t.disappeared)
                (matchResult t dets).1).2,
             t.next_id) ((matchResult t dets).2.2.map (fun c => dets.getD c []))).2.2 } := by
  simp [update, hd, hp, hok]

theorem update_general_err {t : PathTracker} {dets : List Obs}
    (hd : dets.length ≠ 0) (hp : t.paths.length ≠ 0) (hok : distOk t dets = false) :
    update t dets = none := by
  simp [update, hd, hp, hok]

/-! ### Structure of the matching result -/

theorem prevCentroids_length (t : PathTracker) :
    (prevCentroids t).length = t.paths.length := by
  simp [prevCentroids, keysOf]

theorem matchResult_eq {t : PathTracker} {dets : List Obs}
    (hd : dets.length ≠ 0) (hp : t.paths.length ≠ 0) :
    matchResult t dets = matchLoop (trackDistances t dets) t.paths.length
      (List.range t.paths.length) (List.range dets.length) := by
  have hpos : 0 < (prevCentroids t).length * dets.length := by
    rw [prevCentroids_length]
    exact Nat.mul_pos (Nat.pos_of_ne_zero hp) (Nat.pos_of_ne_zero hd)
  simp only [matchResult]
  rw [if_pos hpos, prevCentroids_length]

theorem map_getD_range (l : List Nat) :
    (List.range l.length).map (fun i => l.getD i 0) = l := by
  apply List.ext_getElem
  · simp
  · intro i h1 h2
    simp only [List.getElem_map, List.getElem_range]
    exact List.getD_eq_getElem l 0 h2

theorem matchResult_perm_rows (t : PathTracker) (dets : List Obs) :
    (((matchResult t dets).1.map Prod.fst) ++ (matchResult t dets).2.1).Perm
      (List.range t.paths.length) := by
  simp only [matchResult]
  by_cases hpos : 0 < (prevCentroids t).length * dets.length
  · rw [if_pos hpos, prevCentroids_length]
    exact matchLoop_perm_rows _ _ _ _
  · rw [if_neg hpos, prevCentroids_length]
    simp

theorem matchResult_perm_cols (t : PathTracker) (dets : List Obs) :
    (((matchResult t dets).1.map Prod.snd) ++ (matchResult t dets).2.2).Perm
      (List.range dets.length) := by
  simp only [matchResult]
  by_cases hpos : 0 < (prevCentroids t).length * dets.length
  · rw [if_pos hpos, prevCentroids_length]
    exact matchLoop_perm_cols _ _ _ _
  · rw [if_neg hpos, prevCentroids_length]
    simp

theorem matchResult_matches {t : PathTracker} {dets : List Obs} {rc : Nat × Nat}
    (h : rc ∈ (matchResult t dets).1) :
    rc.1 < t.paths.length ∧ rc.2 < dets.length ∧
      trackDistances t dets rc.1 rc.2 < THRESH_SQ := by
  by_cases hpos : 0 < (prevCentroids t).length * dets.length
  · rw [matchResult, if_pos hpos] at h
    obtain ⟨h1, h2, h3⟩ := matchLoop_matches _ _ _ _ _ h
    exact ⟨by simpa [prevCentroids_length] using List.mem_range.mp h1,
      List.mem_range.mp h2, h3⟩
  · rw [matchResult, if_neg hpos] at h
    simp at h

theorem matchResult_rows_lt {t : PathTracker} {dets : List Obs} {r : Nat}
    (h : r ∈ (matchResult t dets).2.1) : r < t.paths.length := by
  have hperm := matchResult_perm_rows t dets
  have : r ∈ List.range t.paths.length :=
    hperm.subset (List.mem_append_right _ h)
  exact List.mem_range.mp this

theorem matchResult_cols_lt {t : PathTracker} {dets : List Obs} {c : Nat}
    (h : c ∈ (matchResult t dets).2.2) : c < dets.length := by
  have hperm := matchResult_perm_cols t dets
  have : c ∈ List.range dets.length :=
    hperm.subset (List.mem_append_right _ h)
  exact List.mem_range.mp this

theorem matchResult_ids_perm {t : PathTracker} {dets : List Obs} :
    ((matchResult t dets).1.map (fun rc => (keysOf t.paths).getD rc.1 0) ++
     (matchResult t dets).2.1.map (fun r => (keysOf t.paths).getD r 0)).Perm
      (keysOf t.paths) := by
  have hperm := (matchResult_perm_rows t dets).map (fun i => (keysOf t.paths).getD i 0)
  have hlen : t.paths.length = (keysOf t.paths).length := by simp [keysOf]
  rw [hlen, map_getD_range] at hperm
  simpa [List.map_map, Function.comp] using hperm

theorem matchResult_ids_nodup {t : PathTracker} {dets : List Obs}
    (hnd : (keysOf t.paths).Nodup) :
    ((matchResult t dets).1.map (fun rc => (keysOf t.paths).getD rc.1 0)).Nodup ∧
    ((matchResult t dets).2.1.map (fun r => (keysOf t.paths).getD r 0)).Nodup ∧
    ∀ id ∈ (matchResult t dets).1.map (fun rc => (keysOf t.paths).getD rc.1 0),
      id ∉ (matchResult t dets).2.1.map (fun r => (keysOf t.paths).getD r 0) := by
  have h := (@matchResult_ids_perm t dets).symm.nodup hnd
  rw [List.nodup_append] at h
  exact ⟨h.1, h.2.1, fun id h1 h2 => h.2.2 h1 h2⟩

/-! ### Provenance of stored values through one update -/

theorem alookup_adel_some {α : Type} {l : List (Nat × α)} {k id : Nat} {v : α}
    (hnd : (keysOf l).Nodup) (h : alookup (adel l k) id = some v) :
    alookup l id = some v := by
  by_cases hik : id = k
  · subst hik
    rw [alookup_adel_self _ _ hnd] at h
    cases h
  · rwa [alookup_adel_ne _ _ hik] at h

theorem ageOne_paths_some {mx : Nat} {st : List (Nat × List Obs) × List (Nat × Nat)}
    {id0 id : Nat} {h' : List Obs} (hnd : (keysOf st.1).Nodup)
    (h : alookup (ageOne mx st id0).1 id = some h') : alookup st.1 id = some h' := by
  cases hc : alookup st.2 id0 with
  | none => rwa [ageOne_none hc] at h
  | some c =>
    by_cases hgt : mx < c + 1
    · rw [ageOne_del hc hgt] at h
      exact alookup_adel_some hnd h
    · rwa [ageOne_keep hc hgt] at h

theorem ageAll_paths_some {mx : Nat} :
    ∀ {ids : List Nat} {st : List (Nat × List Obs) × List (Nat × Nat)} {id : Nat}
      {h' : List Obs}, (keysOf st.1).Nodup → (keysOf st.2).Nodup →
      alookup (ageAll mx st ids).1 id = some h' → alookup st.1 id = some h' := by
  intro ids
  induction ids with
  | nil => intro st id h' _ _ h; exact h
  | cons id0 ids ih =>
    intro st id h' h1 h2 h
    have hnodups := @ageOne_nodup mx st id0 h1 h2
    exact ageOne_paths_some h1 (ih hnodups.1 hnodups.2 h)

theorem applyMatches_paths_obs {object_ids : List Nat} {dets : List Obs} :
    ∀ {ms : List (Nat × Nat)} {st : List (Nat × List Obs) × List (Nat × Nat)}
      {id : Nat} {h' : List Obs},
      (∀ rc ∈ ms, rc.2 < dets.length) →
      alookup (applyMatches object_ids dets st ms).1 id = some h' →
      (alookup st.1 id = some h') ∨
      (h' ≠ [] ∧ ∀ o ∈ h', o ∈ ((alookup st.1 id).getD []) ∨
        (∃ j < dets.length, o = dets.getD j [])) := by
  intro ms
  induction ms with
  | nil => intro st id h' _ h; exact Or.inl h
  | cons rc0 ms ih =>
    intro st id h' hms h
    have step := @ih
      (aset st.1 (object_ids.getD rc0.1 0)
        (((alookup st.1 (object_ids.getD rc0.1 0)).getD []) ++ [dets.getD rc0.2 []]),
       aset st.2 (object_ids.getD rc0.1 0) 0) id h'
      (fun rc hrc => hms rc (List.mem_cons_of_mem _ hrc)) h
    have hd0 : ∃ j < dets.length, dets.getD rc0.2 [] = dets.getD j [] :=
      ⟨rc0.2, hms rc0 (List.mem_cons_self _ _), rfl⟩
    by_cases hid : id = object_ids.getD rc0.1 0
    · subst hid
      rcases step with hs | hs
      · rw [alookup_aset_self] at hs
        injection hs with hs
        refine Or.inr ⟨by rw [← hs]; simp, ?_⟩
        intro o ho
        rw [← hs] at ho
        rcases List.mem_append.mp ho with ho | ho
        · exact Or.inl ho
        · rcases List.mem_singleton.mp ho with rfl
          obtain ⟨j, hj, hje⟩ := hd0
          exact Or.inr ⟨j, hj, hje⟩
      · refine Or.inr ⟨hs.1, ?_⟩
        intro o ho
        rcases hs.2 o ho with hin | hin
        · rw [alookup_aset_self] at hin
          simp only [Option.getD_some] at hin
          rcases List.mem_append.mp hin with hin | hin
          · exact Or.inl hin
          · rcases List.mem_singleton.mp hin with rfl
            obtain ⟨j, hj, hje⟩ := hd0
            exact Or.inr ⟨j, hj, hje⟩
        · exact Or.inr hin
    · rcases step with hs | hs
      · rw [alookup_aset_ne _ _ _ hid] at hs
        exact Or.inl hs
      · refine Or.inr ⟨hs.1, ?_⟩
        intro o ho
        rcases hs.2 o ho with hin | hin
        · rw [alookup_aset_ne _ _ _ hid] at hin
          exact Or.inl hin
        · exact Or.inr hin

theorem applyMatches_counter_cases {object_ids : List Nat} {dets : List Obs} :
    ∀ {ms : List (Nat × Nat)} {st : List (Nat × List Obs) × List (Nat × Nat)}
      {id c' : Nat},
      alookup (applyMatches object_ids dets st ms).2 id = some c' →
      c' = 0 ∨ alookup st.2 id = some c' := by
  intro ms
  induction ms with
  | nil => intro st id c' h; exact Or.inr h
  | cons rc0 ms ih =>
    intro st id c' h
    rcases ih h with h0 | hs
    · exact Or.inl h0
    · by_cases hid : id = object_ids.getD rc0.1 0
      · subst hid
        rw [alookup_aset_self] at hs
        injection hs with hs
        exact Or.inl hs.symm
      · rw [alookup_aset_ne _ _ _ hid] at hs
        exact Or.inr hs

theorem alookup_seededDis_val {ds : List Obs} :
    ∀ {n id c' : Nat}, alookup (seededDis n ds) id = some c' → c' = 0 := by
  induction ds with
  | nil => intro n id c' h; simp [seededDis, alookup] at h
  | cons d ds ih =>
    intro n id c' h
    simp only [seededDis, alookup] at h
    by_cases hn : n = id
    · rw [if_pos hn] at h
      injection h with h
      exact h.symm
    · rw [if_neg hn] at h
      exact ih h

theorem alookup_seededPaths_val {ds : List Obs} :
    ∀ {n id : Nat} {h' : List Obs}, alookup (seededPaths n ds) id = some h' →
      ∃ d ∈ ds, h' = [d] := by
  induction ds with
  | nil => intro n id h' h; simp [seededPaths, alookup] at h
  | cons d ds ih =>
    intro n id h' h
    simp only [seededPaths, alookup] at h
    by_cases hn : n = id
    · rw [if_pos hn] at h
      injection h with h
      exact ⟨d, List.mem_cons_self _ _, h.symm⟩
    · rw [if_neg hn] at h
      obtain ⟨d', hd', he⟩ := ih h
      exact ⟨d', List.mem_cons_of_mem _ hd', he⟩

/-! ### Characterization of the general branch of `update` -/

theorem mem_keysOf_iff {α : Type} {l : List (Nat × α)} {k : Nat} :
    k ∈ keysOf l ↔ ∃ v, (k, v) ∈ l := by
  constructor
  · intro h
    obtain ⟨e, he, hk⟩ := List.mem_map.mp h
    rcases e with ⟨a, b⟩
    cases hk
    exact ⟨b, he⟩
  · rintro ⟨v, hv⟩
    exact List.mem_map.mpr ⟨(k, v), hv, rfl⟩

theorem keysOf_lt_next {t : PathTracker} (hInv : TrackerInv t) :
    ∀ k ∈ keysOf t.paths, k < t.next_id := by
  intro k hk
  obtain ⟨v, hv⟩ := mem_keysOf_iff.mp hk
  exact hInv.bounded _ hv

theorem st1_keys {t : PathTracker} {dets : List Obs} (hInv : TrackerInv t) :
    keysOf (applyMatches (keysOf t.paths) dets (t.paths, t.disappeared)
      (matchResult t dets).1).1 = keysOf t.paths ∧
    keysOf (applyMatches (keysOf t.paths) dets (t.paths, t.disappeared)
      (matchResult t dets).1).2 = keysOf t.disappeared := by
  apply applyMatches_keys
  intro rc hrc
  have hb := (matchResult_matches hrc).1
  have hmem : (keysOf t.paths).getD rc.1 0 ∈ keysOf t.paths :=
    getD_mem_of_lt (by simpa [keysOf] using hb)
  exact ⟨hmem, hInv.sync ▸ hmem⟩

theorem st2_eq {t : PathTracker} {dets : List Obs} (hInv : TrackerInv t) :
    seedTracks
      ((applyMatches (keysOf t.paths) dets (t.paths, t.disappeared)
          (matchResult t dets).1).1,
       (applyMatches (keysOf t.paths) dets (t.paths, t.disappeared)
          (matchResult t dets).1).2,
       t.next_id) ((matchResult t dets).2.2.map (fun c => dets.getD c [])) =
      ((applyMatches (keysOf t.paths) dets (t.paths, t.disappeared)
          (matchResult t dets).1).1 ++
        seededPaths t.next_id ((matchResult t dets).2.2.map (fun c => dets.getD c [])),
       (applyMatches (keysOf t.paths) dets (t.paths, t.disappeared)
          (matchResult t dets).1).2 ++
        seededDis t.next_id ((matchResult t dets).2.2.map (fun c => dets.getD c [])),
       t.next_id + (matchResult t dets).2.2.length) := by
  have hk := @st1_keys t dets hInv
  have h := @seedTracks_eq ((matchResult t dets).2.2.map (fun c => dets.getD c []))
    ((applyMatches (keysOf t.paths) dets (t.paths, t.disappeared)
      (matchResult t dets).1).1)
    ((applyMatches (keysOf t.paths) dets (t.paths, t.disappeared)
      (matchResult t dets).1).2)
    t.next_id
    (fun k hmem => keysOf_lt_next hInv k (hk.1 ▸ hmem))
    (fun k hmem => keysOf_lt_next hInv k (hInv.sync ▸ hk.2 ▸ hmem))
  rw [h, List.length_map]

theorem missed_lt_next {t : PathTracker} {dets : List Obs} (hInv : TrackerInv t)
    {id : Nat} (h : id ∈ (matchResult t dets).2.1.map
      (fun r => (keysOf t.paths).getD r 0)) : id < t.next_id := by
  obtain ⟨r, hr, rfl⟩ := List.mem_map.mp h
  have hb := matchResult_rows_lt hr
  exact keysOf_lt_next hInv _ (getD_mem_of_lt (by simpa [keysOf] using hb))

theorem update_general_parts {t : PathTracker} {dets : List Obs}
    (hInv : TrackerInv t) (hd : dets.length ≠ 0) (hp : t.paths.length ≠ 0)
    (hok : distOk t dets = true) {t' : PathTracker}
    (ht' : update t dets = some t') :
    t'.paths = (ageAll t.max_disappeared
      ((applyMatches (keysOf t.paths) dets (t.paths, t.disappeared)
          (matchResult t dets).1).1 ++
        seededPaths t.next_id ((matchResult t dets).2.2.map (fun c => dets.getD c [])),
       (applyMatches (keysOf t.paths) dets (t.paths, t.disappeared)
          (matchResult t dets).1).2 ++
        seededDis t.next_id ((matchResult t dets).2.2.map (fun c => dets.getD c [])))
      ((matchResult t dets).2.1.map (fun r => (keysOf t.paths).getD r 0))).1 ∧
    t'.disappeared = (ageAll t.max_disappeared
      ((applyMatches (keysOf t.paths) dets (t.paths, t.disappeared)
          (matchResult t dets).1).1 ++
        seededPaths t.next_id ((matchResult t dets).2.2.map (fun c => dets.getD c [])),
       (applyMatches (keysOf t.paths) dets (t.paths, t.disappeared)
          (matchResult t dets).1).2 ++
        seededDis t.next_id ((matchResult t dets).2.2.map (fun c => dets.getD c [])))
      ((matchResult t dets).2.1.map (fun r => (keysOf t.paths).getD r 0))).2 ∧
    t'.next_id = t.next_id + (matchResult t dets).2.2.length ∧
    t'.max_disappeared = t.max_disappeared := by
  have hBIG := Option.some.inj (ht'.symm.trans (update_general hd hp hok))
  subst hBIG
  have hst2 := @st2_eq t dets hInv
  constructor
  · show (ageAll t.max_disappeared
      ((seedTracks _ _).1, (seedTracks _ _).2.1) _).1 = _
    rw [hst2]
  constructor
  · show (ageAll t.max_disappeared
      ((seedTracks _ _).1, (seedTracks _ _).2.1) _).2 = _
    rw [hst2]
  constructor
  · show (seedTracks _ _).2.2 = _
    rw [hst2]
  · rfl

/-- The state of `(paths, disappeared)` after the matched detections have been
applied (lines 68-69), before unmatched detections and tracks are handled. -/
def st1Of (t : PathTracker) (dets : List Obs) :
    List (Nat × List Obs) × List (Nat × Nat) :=
  applyMatches (keysOf t.paths) dets (t.paths, t.disappeared) (matchResult t dets).1

/-- The unmatched detections, in `cols_idx` order (the values seeded at
lines 79-82). -/
def seedDetsOf (t : PathTracker) (dets : List Obs) : List Obs :=
  (matchResult t dets).2.2.map (fun c => dets.getD c [])

/-- The IDs of the tracks left unmatched this frame (aged at lines 85-90). -/
def missedOf (t : PathTracker) (dets : List Obs) : List Nat :=
  (matchResult t dets).2.1.map (fun r => (keysOf t.paths).getD r 0)

/-- The state after matched detections are applied and unmatched detections
seeded, before the unmatched tracks are aged. -/
def st2Of (t : PathTracker) (dets : List Obs) :
    List (Nat × List Obs) × List (Nat × Nat) :=
  ((st1Of t dets).1 ++ seededPaths t.next_id (seedDetsOf t dets),
   (st1Of t dets).2 ++ seededDis t.next_id (seedDetsOf t dets))

theorem update_general_shape {t : PathTracker} {dets : List Obs}
    (hInv : TrackerInv t) (hd : dets.length ≠ 0) (hp : t.paths.length ≠ 0)
    (hok : distOk t dets = true) {t' : PathTracker}
    (ht' : update t dets = some t') :
    t'.paths = (ageAll t.max_disappeared (st2Of t dets) (missedOf t dets)).1 ∧
    t'.disappeared = (ageAll t.max_disappeared (st2Of t dets) (missedOf t dets)).2 ∧
    t'.next_id = t.next_id + (matchResult t dets).2.2.length ∧
    t'.max_disappeared = t.max_disappeared := by
  exact update_general_parts hInv hd hp hok ht'

theorem st2_keys {t : PathTracker} {dets : List Obs} (hInv : TrackerInv t) :
    keysOf (st2Of t dets).1 =
      keysOf t.paths ++ List.range' t.next_id (matchResult t dets).2.2.length ∧
    keysOf (st2Of t dets).2 =
      keysOf t.disappeared ++ List.range' t.next_id (matchResult t dets).2.2.length := by
  have hk := @st1_keys t dets hInv
  constructor
  · rw [show (st2Of t dets).1 =
        (st1Of t dets).1 ++ seededPaths t.next_id (seedDetsOf t dets) from rfl,
      keysOf_append, keysOf_seededPaths]
    rw [show keysOf (st1Of t dets).1 = keysOf t.paths from hk.1]
    simp [seedDetsOf]
  · rw [show (st2Of t dets).2 =
        (st1Of t dets).2 ++ seededDis t.next_id (seedDetsOf t dets) from rfl,
      keysOf_append, keysOf_seededDis]
    rw [show keysOf (st1Of t dets).2 = keysOf t.disappeared from hk.2]
    simp [seedDetsOf]

theorem st2_nodup {t : PathTracker} {dets : List Obs} (hInv : TrackerInv t) :
    (keysOf (st2Of t dets).1).Nodup ∧ (keysOf (st2Of t dets).2).Nodup := by
  have hk := @st2_keys t dets hInv
  have hnd2 : (keysOf t.disappeared).Nodup := hInv.sync ▸ hInv.nodup
  constructor
  · rw [hk.1]
    refine List.Nodup.append hInv.nodup (List.nodup_range' _ _) ?_
    intro a ha hb
    have := keysOf_lt_next hInv a ha
    have := (List.mem_range'_1.mp hb).1
    omega
  · rw [hk.2]
    refine List.Nodup.append hnd2 (List.nodup_range' _ _) ?_
    intro a ha hb
    have := keysOf_lt_next hInv a (hInv.sync ▸ ha)
    have := (List.mem_range'_1.mp hb).1
    omega

theorem st2_sync {t : PathTracker} {dets : List Obs} (hInv : TrackerInv t) :
    keysOf (st2Of t dets).1 = keysOf (st2Of t dets).2 := by
  have hk := @st2_keys t dets hInv
  rw [hk.1, hk.2, hInv.sync]

theorem update_general_matched {t : PathTracker} {dets : List Obs}
    (hInv : TrackerInv t) (hd : dets.length ≠ 0) (hp : t.paths.length ≠ 0)
    (hok : distOk t dets = true) {t' : PathTracker}
    (ht' : update t dets = some t') {rc : Nat × Nat}
    (hrc : rc ∈ (matchResult t dets).1) :
    alookup t'.paths ((keysOf t.paths).getD rc.1 0) =
      some (((alookup t.paths ((keysOf t.paths).getD rc.1 0)).getD []) ++
        [dets.getD rc.2 []]) ∧
    alookup t'.disappeared ((keysOf t.paths).getD rc.1 0) = some 0 := by
  obtain ⟨hP, hD, _, _⟩ := update_general_shape hInv hd hp hok ht'
  have hids := @matchResult_ids_nodup t dets hInv.nodup
  have hmoid : (keysOf t.paths).getD rc.1 0 ∈
      (matchResult t dets).1.map (fun rc => (keysOf t.paths).getD rc.1 0) :=
    List.mem_map.mpr ⟨rc, hrc, rfl⟩
  have hnotmissed : (keysOf t.paths).getD rc.1 0 ∉ missedOf t dets :=
    hids.2.2 _ hmoid
  have hst1 := @applyMatches_lookup_mem (keysOf t.paths) dets
    (matchResult t dets).1 (t.paths, t.disappeared) rc hrc hids.1
  have hkey : (keysOf t.paths).getD rc.1 0 ∈ keysOf t.paths :=
    getD_mem_of_lt (by simpa [keysOf] using (matchResult_matches hrc).1)
  have hk1 := @st1_keys t dets hInv
  have hage := @ageAll_lookup_notmem t.max_disappeared (missedOf t dets)
    (st2Of t dets) ((keysOf t.paths).getD rc.1 0) hnotmissed
  rw [hP, hD]
  refine ⟨hage.1.trans ?_, hage.2.trans ?_⟩
  · rw [show (st2Of t dets).1 =
        (st1Of t dets).1 ++ seededPaths t.next_id (seedDetsOf t dets) from rfl]
    rw [alookup_append_left _ (hk1.1 ▸ hkey)]
    exact hst1.1
  · rw [show (st2Of t dets).2 =
        (st1Of t dets).2 ++ seededDis t.next_id (seedDetsOf t dets) from rfl]
    rw [alookup_append_left _ (hk1.2 ▸ hInv.sync ▸ hkey)]
    exact hst1.2

theorem update_general_seeded {t : PathTracker} {dets : List Obs}
    (hInv : TrackerInv t) (hd : dets.length ≠ 0) (hp : t.paths.length ≠ 0)
    (hok : distOk t dets = true) {t' : PathTracker}
    (ht' : update t dets = some t') {j : Nat}
    (hj : j < (matchResult t dets).2.2.length) :
    alookup t'.paths (t.next_id + j) =
      some [dets.getD ((matchResult t dets).2.2.getD j 0) []] ∧
    alookup t'.disappeared (t.next_id + j) = some 0 := by
  obtain ⟨hP, hD, _, _⟩ := update_general_shape hInv hd hp hok ht'
  have hk1 := @st1_keys t dets hInv
  have hnot1 : t.next_id + j ∉ keysOf (st1Of t dets).1 := by
    rw [show keysOf (st1Of t dets).1 = keysOf t.paths from hk1.1]
    intro hmem
    have := keysOf_lt_next hInv _ hmem
    omega
  have hnot2 : t.next_id + j ∉ keysOf (st1Of t dets).2 := by
    rw [show keysOf (st1Of t dets).2 = keysOf t.disappeared from hk1.2, ← hInv.sync]
    intro hmem
    have := keysOf_lt_next hInv _ hmem
    omega
  have hnotmissed : t.next_id + j ∉ missedOf t dets := by
    intro hmem
    have := missed_lt_next hInv hmem
    omega
  have hjlen : j < (seedDetsOf t dets).length := by
    simpa [seedDetsOf] using hj
  have hage := @ageAll_lookup_notmem t.max_disappeared (missedOf t dets)
    (st2Of t dets) (t.next_id + j) hnotmissed
  rw [hP, hD]
  refine ⟨hage.1.trans ?_, hage.2.trans ?_⟩
  · rw [show (st2Of t dets).1 =
        (st1Of t dets).1 ++ seededPaths t.next_id (seedDetsOf t dets) from rfl]
    rw [alookup_append_right _ hnot1, alookup_seededPaths hjlen]
    rw [show (seedDetsOf t dets).getD j [] =
        dets.getD ((matchResult t dets).2.2.getD j 0) [] from
      getD_map_of_lt _ 0 [] hj]
  · rw [show (st2Of t dets).2 =
        (st1Of t dets).2 ++ seededDis t.next_id (seedDetsOf t dets) from rfl]
    rw [alookup_append_right _ hnot2, alookup_seededDis hjlen]

theorem update_general_missed {t : PathTracker} {dets : List Obs}
    (hInv : TrackerInv t) (hd : dets.length ≠ 0) (hp : t.paths.length ≠ 0)
    (hok : distOk t dets = true) {t' : PathTracker}
    (ht' : update t dets = some t') {r : Nat}
    (hr : r ∈ (matchResult t dets).2.1) {c : Nat}
    (hc : alookup t.disappeared ((keysOf t.paths).getD r 0) = some c) :
    (t.max_disappeared < c + 1 →
      alookup t'.paths ((keysOf t.paths).getD r 0) = none ∧
      alookup t'.disappeared ((keysOf t.paths).getD r 0) = none) ∧
    (¬ t.max_disappeared < c + 1 →
      alookup t'.paths ((keysOf t.paths).getD r 0) =
        alookup t.paths ((keysOf t.paths).getD r 0) ∧
      alookup t'.disappeared ((keysOf t.paths).getD r 0) = some (c + 1)) := by
  obtain ⟨hP, hD, _, _⟩ := update_general_shape hInv hd hp hok ht'
  have hids := @matchResult_ids_nodup t dets hInv.nodup
  have hmissed : (keysOf t.paths).getD r 0 ∈ missedOf t dets :=
    List.mem_map.mpr ⟨r, hr, rfl⟩
  have hnotmoid : (keysOf t.paths).getD r 0 ∉
      (matchResult t dets).1.map (fun rc => (keysOf t.paths).getD rc.1 0) := by
    intro hmem
    exact hids.2.2 _ hmem hmissed
  have hkey : (keysOf t.paths).getD r 0 ∈ keysOf t.paths :=
    getD_mem_of_lt (by simpa [keysOf] using matchResult_rows_lt hr)
  have hk1 := @st1_keys t dets hInv
  have hst1 := @applyMatches_lookup_notmem (keysOf t.paths) dets
    (matchResult t dets).1 (t.paths, t.disappeared)
    ((keysOf t.paths).getD r 0) hnotmoid
  have hst2p : alookup (st2Of t dets).1 ((keysOf t.paths).getD r 0) =
      alookup t.paths ((keysOf t.paths).getD r 0) := by
    rw [show (st2Of t dets).1 =
        (st1Of t dets).1 ++ seededPaths t.next_id (seedDetsOf t dets) from rfl]
    rw [alookup_append_left _ (hk1.1 ▸ hkey)]
    exact hst1.1
  have hst2d : alookup (st2Of t dets).2 ((keysOf t.paths).getD r 0) = some c := by
    rw [show (st2Of t dets).2 =
        (st1Of t dets).2 ++ seededDis t.next_id (seedDetsOf t dets) from rfl]
    rw [alookup_append_left _ (hk1.2 ▸ hInv.sync ▸ hkey)]
    exact hst1.2.trans hc
  have hnd := @st2_nodup t dets hInv
  rw [hP, hD]
  constructor
  · intro hgt
    exact ageAll_lookup_del hmissed hids.2.1 hnd.1 hnd.2 hst2d hgt
  · intro hle
    have := ageAll_lookup_keep hmissed hids.2.1 hnd.1 hnd.2 hst2d hle
    exact ⟨this.1.trans hst2p, this.2⟩

/-! ### Totality on well-formed input, and invariant preservation -/

theorem getLastD_mem_of_ne_nil {α : Type} :
    ∀ {l : List α}, l ≠ [] → ∀ d : α, l.getLastD d ∈ l
  | [], h, _ => absurd rfl h
  | [a], _, d => by simp [List.getLastD_cons, List.getLastD_nil]
  | a :: b :: t, _, d => by
    rw [List.getLastD_cons]
    exact List.mem_cons_of_mem _ (getLastD_mem_of_ne_nil (List.cons_ne_nil b t) a)

theorem prevCentroids_mem {t : PathTracker} (hInv : TrackerInv t) {p : Obs}
    (hp : p ∈ prevCentroids t) : ∃ e ∈ t.paths, p = e.2.getLastD [] := by
  obtain ⟨oid, hoid, hpe⟩ := List.mem_map.mp hp
  obtain ⟨v, hv⟩ := mem_keysOf_iff.mp hoid
  rw [alookup_of_mem_nodup hInv.nodup hv] at hpe
  exact ⟨(oid, v), hv, hpe.symm⟩

theorem sqDist2_isSome_of_WF {p d : Obs} (hp : WFobs p) (hd : WFobs d) :
    (sqDist2 p d).isSome = true := by
  have h1 : (List.take 2 p).length = 2 := by
    rw [List.length_take]
    exact Nat.min_eq_left hp
  have h2 : (List.take 2 d).length = 2 := by
    rw [List.length_take]
    exact Nat.min_eq_left hd
  simp [sqDist2, bsubSq, h1, h2]

theorem distOk_of_WF {t : PathTracker} {dets : List Obs} (hInv : TrackerInv t)
    (hW : WFState t) (hWd : WFdets dets) : distOk t dets = true := by
  rw [distOk, List.all_eq_true]
  intro p hp
  rw [List.all_eq_true]
  intro d hd
  obtain ⟨e, he, hpe⟩ := prevCentroids_mem hInv hp
  have hWp : WFobs p := by
    rw [hpe]
    exact hW e he _ (getLastD_mem_of_ne_nil (hInv.hist_ne e he) [])
  exact sqDist2_isSome_of_WF hWp (hWd d hd)

theorem update_some_of_WF {t : PathTracker} {dets : List Obs} (hInv : TrackerInv t)
    (hW : WFState t) (hWd : WFdets dets) : ∃ t', update t dets = some t' := by
  by_cases hd : dets.length = 0
  · rw [show dets = [] from List.length_eq_zero.mp hd]
    exact ⟨_, update_empty t⟩
  · by_cases hp : t.paths.length = 0
    · exact ⟨_, update_coldstart hd hp⟩
    · exact ⟨_, update_general hd hp (distOk_of_WF hInv hW hWd)⟩

theorem mem_seededPaths_entry {ds : List Obs} :
    ∀ {n : Nat} {e : Nat × List Obs}, e ∈ seededPaths n ds →
      (∃ d ∈ ds, e.2 = [d]) ∧ n ≤ e.1 := by
  induction ds with
  | nil => intro n e h; simp [seededPaths] at h
  | cons d ds ih =>
    intro n e h
    rcases List.mem_cons.mp h with rfl | h
    · exact ⟨⟨d, List.mem_cons_self _ _, rfl⟩, le_refl n⟩
    · obtain ⟨⟨d', hd', he⟩, hn⟩ := ih h
      exact ⟨⟨d', List.mem_cons_of_mem _ hd', he⟩, by omega⟩

theorem mem_seededDis_entry {ds : List Obs} :
    ∀ {n : Nat} {e : Nat × Nat}, e ∈ seededDis n ds → e.2 = 0 := by
  induction ds with
  | nil => intro n e h; simp [seededDis] at h
  | cons d ds ih =>
    intro n e h
    rcases List.mem_cons.mp h with rfl | h
    · rfl
    · exact ih h

theorem update_general_keys {t : PathTracker} {dets : List Obs}
    (hInv : TrackerInv t) (hd : dets.length ≠ 0) (hp : t.paths.length ≠ 0)
    (hok : distOk t dets = true) {t' : PathTracker}
    (ht' : update t dets = some t') :
    keysOf t'.paths = keysOf t'.disappeared ∧
    (keysOf t'.paths).Nodup ∧ (keysOf t'.disappeared).Nodup ∧
    ∀ id ∈ keysOf t'.paths, id ∈ keysOf t.paths ∨
      (t.next_id ≤ id ∧ id < t.next_id + (matchResult t dets).2.2.length) := by
  obtain ⟨hP, hD, hN, hM⟩ := update_general_shape hInv hd hp hok ht'
  have hnd := @st2_nodup t dets hInv
  have hnods := @ageAll_nodup t.max_disappeared (missedOf t dets)
    (st2Of t dets) hnd.1 hnd.2
  rw [hP, hD]
  refine ⟨ageAll_keys_sync (st2_sync hInv), hnods.1, hnods.2, ?_⟩
  intro id hid
  have hmem := (@ageAll_keys_subset t.max_disappeared
    (missedOf t dets) (st2Of t dets)).1 hid
  rw [(st2_keys hInv).1] at hmem
  rcases List.mem_append.mp hmem with hold | hnew
  · exact Or.inl hold
  · exact Or.inr (List.mem_range'_1.mp hnew)

theorem update_preserves {t : PathTracker} {dets : List Obs} {t' : PathTracker}
    (hInv : TrackerInv t) (hWd : WFdets dets) (h : update t dets = some t') :
    TrackerInv t' ∧ (WFState t → WFState t') ∧
    t.next_id ≤ t'.next_id ∧ t'.max_disappeared = t.max_disappeared ∧
    (∀ id ∈ keysOf t'.paths, id ∈ keysOf t.paths ∨ t.next_id ≤ id) ∧
    (∀ id, id ∉ keysOf t.paths → id ∉ keysOf t'.paths ∨ t.next_id ≤ id) := by
  by_cases hd : dets.length = 0
  · -- empty-detections branch
    have hdets : dets = [] := List.length_eq_zero.mp hd
    subst hdets
    have hBIG := Option.some.inj (h.symm.trans (update_empty t))
    subst hBIG
    have hnd2 : (keysOf t.disappeared).Nodup := hInv.sync ▸ hInv.nodup
    have hnods := @ageAll_nodup t.max_disappeared
      (keysOf t.disappeared) (t.paths, t.disappeared) hInv.nodup hnd2
    have hsync := @ageAll_keys_sync t.max_disappeared
      (keysOf t.disappeared) (t.paths, t.disappeared) hInv.sync
    have hsub := @ageAll_keys_subset t.max_disappeared
      (keysOf t.disappeared) (t.paths, t.disappeared)
    refine ⟨⟨hnods.1, hsync, ?_, ?_, ?_⟩, ?_, le_refl _, rfl, ?_, ?_⟩
    · intro e he
      exact keysOf_lt_next hInv _ (hsub.1 (List.mem_map.mpr ⟨e, he, rfl⟩))
    · intro e he
      have hl := alookup_of_mem_nodup hnods.1 he
      have := ageAll_paths_some hInv.nodup hnd2 hl
      exact hInv.hist_ne _ (alookup_mem this)
    · intro e he
      have hl := alookup_of_mem_nodup hnods.2 he
      rcases ageAll_counter_cases hInv.nodup hnd2 hl with ⟨hnot, hold⟩ | hle
      · exact absurd (List.mem_map.mpr ⟨_, alookup_mem hold, rfl⟩) hnot
      · exact hle
    · intro hW e he o ho
      have hl := alookup_of_mem_nodup hnods.1 he
      have := ageAll_paths_some hInv.nodup hnd2 hl
      exact hW _ (alookup_mem this) o ho
    · intro id hid
      exact Or.inl (hsub.1 hid)
    · intro id hid
      left
      intro hmem
      exact hid (hsub.1 hmem)
  · by_cases hp : t.paths.length = 0
    · -- cold-start branch
      have hpnil : t.paths = [] := List.length_eq_zero.mp hp
      have hdnil : t.disappeared = [] := by
        have hk : keysOf t.disappeared = [] := by
          rw [← hInv.sync, hpnil]
          rfl
        simpa [keysOf] using hk
      have hBIG := Option.some.inj (h.symm.trans (update_coldstart hd hp))
      subst hBIG
      have hseeds := @seedTracks_eq dets t.paths t.disappeared t.next_id
        (fun k hk => by rw [hpnil] at hk; simp [keysOf] at hk)
        (fun k hk => by rw [hdnil] at hk; simp [keysOf] at hk)
      have hP : (seedTracks (t.paths, t.disappeared, t.next_id) dets).1 =
          seededPaths t.next_id dets := by
        rw [hseeds, hpnil]
        rfl
      have hD : (seedTracks (t.paths, t.disappeared, t.next_id) dets).2.1 =
          seededDis t.next_id dets := by
        rw [hseeds, hdnil]
        rfl
      have hN : (seedTracks (t.paths, t.disappeared, t.next_id) dets).2.2 =
          t.next_id + dets.length := by
        rw [hseeds]
      refine ⟨⟨?_, ?_, ?_, ?_, ?_⟩, ?_, ?_, rfl, ?_, ?_⟩
      · show (keysOf (seedTracks (t.paths, t.disappeared, t.next_id) dets).1).Nodup
        rw [hP, keysOf_seededPaths]
        exact List.nodup_range' _ _
      · show keysOf (seedTracks (t.paths, t.disappeared, t.next_id) dets).1 =
          keysOf (seedTracks (t.paths, t.disappeared, t.next_id) dets).2.1
        rw [hP, hD, keysOf_seededPaths, keysOf_seededDis]
      · intro e he
        show e.1 < (seedTracks (t.paths, t.disappeared, t.next_id) dets).2.2
        rw [hN]
        have : e.1 ∈ keysOf (seededPaths t.next_id dets) :=
          List.mem_map.mpr ⟨e, hP ▸ he, rfl⟩
        rw [keysOf_seededPaths] at this
        exact (List.mem_range'_1.mp this).2
      · intro e he
        obtain ⟨⟨d', _, he2⟩, _⟩ := mem_seededPaths_entry (hP ▸ he)
        rw [he2]
        exact List.cons_ne_nil _ _
      · intro e he
        rw [mem_seededDis_entry (hD ▸ he)]
        exact Nat.zero_le _
      · intro _ e he o ho
        obtain ⟨⟨d', hd', he2⟩, _⟩ := mem_seededPaths_entry (hP ▸ he)
        rw [he2] at ho
        rcases List.mem_singleton.mp ho with rfl
        exact hWd _ hd'
      · show t.next_id ≤ (seedTracks (t.paths, t.disappeared, t.next_id) dets).2.2
        rw [hN]
        omega
      · intro id hid
        right
        have : id ∈ keysOf (seededPaths t.next_id dets) := hP ▸ hid
        rw [keysOf_seededPaths] at this
        exact (List.mem_range'_1.mp this).1
      · intro id _
        by_cases hmem : id ∈ keysOf (seedTracks (t.paths, t.disappeared, t.next_id) dets).1
        · right
          have : id ∈ keysOf (seededPaths t.next_id dets) := hP ▸ hmem
          rw [keysOf_seededPaths] at this
          exact (List.mem_range'_1.mp this).1
        · exact Or.inl hmem
    · -- general branch
      have hok : distOk t dets = true := by
        by_contra hok
        rw [update_general_err hd hp (Bool.not_eq_true _ ▸ hok : distOk t dets = false)] at h
        cases h
      obtain ⟨hP, hD, hN, hM⟩ := update_general_shape hInv hd hp hok h
      obtain ⟨hsync, hnd1, hnd2, hprov⟩ := update_general_keys hInv hd hp hok h
      have hst2nd := @st2_nodup t dets hInv
      have hk1 := @st1_keys t dets hInv
      have hms : ∀ rc ∈ (matchResult t dets).1, rc.2 < dets.length :=
        fun rc hrc => (matchResult_matches hrc).2.1
      have hpaths_cases : ∀ {id : Nat} {h' : List Obs},
          alookup t'.paths id = some h' →
          (alookup t.paths id = some h') ∨
          (h' ≠ [] ∧ ∀ o ∈ h', o ∈ ((alookup t.paths id).getD []) ∨
            (∃ j < dets.length, o = dets.getD j [])) ∨
          (∃ d ∈ dets, h' = [d]) := by
        intro id h' hl
        rw [hP] at hl
        have hst2 := ageAll_paths_some hst2nd.1 hst2nd.2 hl
        by_cases hin : id ∈ keysOf (st1Of t dets).1
        · rw [show (st2Of t dets).1 =
              (st1Of t dets).1 ++ seededPaths t.next_id (seedDetsOf t dets) from rfl,
            alookup_append_left _ hin] at hst2
          rcases applyMatches_paths_obs hms hst2 with hold | hnew
          · exact Or.inl hold
          · exact Or.inr (Or.inl hnew)
        · rw [show (st2Of t dets).1 =
              (st1Of t dets).1 ++ seededPaths t.next_id (seedDetsOf t dets) from rfl,
            alookup_append_right _ hin] at hst2
          obtain ⟨d, hdm, he⟩ := alookup_seededPaths_val hst2
          obtain ⟨c, hcm, rfl⟩ := List.mem_map.mp hdm
          refine Or.inr (Or.inr ⟨dets.getD c [], ?_, he⟩)
          exact getD_mem_of_lt (matchResult_cols_lt hcm)
      have hdis_cases : ∀ {id c' : Nat},
          alookup t'.disappeared id = some c' →
          c' = 0 ∨ c' ≤ t.max_disappeared ∨ alookup t.disappeared id = some c' := by
        intro id c' hl
        rw [hD] at hl
        rcases ageAll_counter_cases hst2nd.1 hst2nd.2 hl with ⟨_, hst2⟩ | hle
        · by_cases hin : id ∈ keysOf (st1Of t dets).2
          · rw [show (st2Of t dets).2 =
                (st1Of t dets).2 ++ seededDis t.next_id (seedDetsOf t dets) from rfl,
              alookup_append_left _ hin] at hst2
            rcases applyMatches_counter_cases hst2 with h0 | hold
            · exact Or.inl h0
            · exact Or.inr (Or.inr hold)
          · rw [show (st2Of t dets).2 =
                (st1Of t dets).2 ++ seededDis t.next_id (seedDetsOf t dets) from rfl,
              alookup_append_right _ hin] at hst2
            exact Or.inl (alookup_seededDis_val hst2)
        · exact Or.inr (Or.inl hle)
      refine ⟨⟨hnd1, hsync, ?_, ?_, ?_⟩, ?_, ?_, hM, ?_, ?_⟩
      · intro e he
        rcases hprov e.1 (List.mem_map.mpr ⟨e, he, rfl⟩) with hold | hnew
        · have := keysOf_lt_next hInv _ hold
          omega
        · omega
      · intro e he
        have hl := alookup_of_mem_nodup hnd1 he
        rcases hpaths_cases hl with hold | ⟨hne, _⟩ | ⟨d, _, he2⟩
        · exact hInv.hist_ne _ (alookup_mem hold)
        · exact hne
        · rw [he2]
          exact List.cons_ne_nil _ _
      · intro e he
        have hl := alookup_of_mem_nodup hnd2 he
        rw [hM]
        rcases hdis_cases hl with h0 | hle | hold
        · omega
        · exact hle
        · exact hInv.counter_le _ (alookup_mem hold)
      · intro hW e he o ho
        have hl := alookup_of_mem_nodup hnd1 he
        rcases hpaths_cases hl with hold | ⟨_, hobs⟩ | ⟨d, hdm, he2⟩
        · exact hW _ (alookup_mem hold) o ho
        · rcases hobs o ho with hin | ⟨j, hj, rfl⟩
          · cases hlk : alookup t.paths e.1 with
            | none => rw [hlk] at hin; simp at hin
            | some h0 =>
              rw [hlk] at hin
              exact hW _ (alookup_mem hlk) o hin
          · exact hWd _ (getD_mem_of_lt hj)
        · rw [he2] at ho
          rcases List.mem_singleton.mp ho with rfl
          exact hWd _ hdm
      · rw [hN]
        omega
      · intro id hid
        rcases hprov id hid with hold | hnew
        · exact Or.inl hold
        · exact Or.inr hnew.1
      · intro id hid
        by_cases hmem : id ∈ keysOf t'.paths
        · rcases hprov id hmem with hold | hnew
          · exact absurd hold hid
          · exact Or.inr hnew.1
        · exact Or.inl hmem

theorem reachable_inv {t : PathTracker} (h : Reachable t) :
    TrackerInv t ∧ WFState t := by
  induction h with
  | init =>
    refine ⟨⟨?_, ?_, ?_, ?_, ?_⟩, ?_⟩
    · exact List.nodup_nil
    · rfl
    · intro e he; simp [initTracker] at he
    · intro e he; simp [initTracker] at he
    · intro e he; simp [initTracker] at he
    · intro e he; simp [initTracker] at he
  | step hr hWd hupd ih =>
    obtain ⟨hInv, hW⟩ := ih
    obtain ⟨hInv', hW', _⟩ := update_preserves hInv hWd hupd
    exact ⟨hInv', hW' hW⟩

theorem updateSeq_reachable :
    ∀ {frames : List (List Obs)} {t t' : PathTracker}, Reachable t →
      (∀ ds ∈ frames, WFdets ds) → updateSeq t frames = some t' →
      Reachable t' ∧ t.next_id ≤ t'.next_id ∧
      (∀ id, id ∉ keysOf t.paths → id ∉ keysOf t'.paths ∨ t.next_id ≤ id) ∧
      (∀ id ∈ keysOf t'.paths, id ∈ keysOf t.paths ∨ t.next_id ≤ id) := by
  intro frames
  induction frames with
  | nil =>
    intro t t' hr _ h
    cases h
    exact ⟨hr, le_refl _, fun id hid => Or.inl hid, fun id hid => Or.inl hid⟩
  | cons ds rest ih =>
    intro t t' hr hWF h
    cases hu : update t ds with
    | none =>
      simp only [updateSeq, hu] at h
      cases h
    | some t1 =>
      simp only [updateSeq, hu] at h
      have hInv := (reachable_inv hr).1
      have hpres := update_preserves hInv (hWF ds (List.mem_cons_self _ _)) hu
      have hr1 : Reachable t1 := Reachable.step hr (hWF ds (List.mem_cons_self _ _)) hu
      obtain ⟨hr', hmono, habs, hprov⟩ :=
        ih hr1 (fun f hf => hWF f (List.mem_cons_of_mem _ hf)) h
      refine ⟨hr', le_trans hpres.2.2.1 hmono, ?_, ?_⟩
      · intro id hid
        rcases hpres.2.2.2.2.2 id hid with hnot1 | hge
        · rcases habs id hnot1 with hnot' | hge1
          · exact Or.inl hnot'
          · exact Or.inr (le_trans hpres.2.2.1 hge1)
        · exact Or.inr hge
      · intro id hid
        rcases hprov id hid with h1 | hge
        · rcases hpres.2.2.2.2.1 id h1 with h2 | hge
          · exact Or.inl h2
          · exact Or.inr hge
        · exact Or.inr (le_trans hpres.2.2.1 hge)

theorem update_unmatched_step {t : PathTracker} {dets : List Obs} {t' : PathTracker}
    (hInv : TrackerInv t) (hupd : update t dets = some t') {id c : Nat}
    (hid : alookup t.disappeared id = some c) (hunm : id ∉ matchedIds t dets) :
    (t.max_disappeared < c + 1 →
      alookup t'.paths id = none ∧ alookup t'.disappeared id = none) ∧
    (¬ t.max_disappeared < c + 1 →
      alookup t'.disappeared id = some (c + 1)) := by
  have hnd2 : (keysOf t.disappeared).Nodup := hInv.sync ▸ hInv.nodup
  have hmemd : id ∈ keysOf t.disappeared :=
    (alookup_isSome_iff _ _).mp (by simp [hid])
  by_cases hd : dets.length = 0
  · have hdets : dets = [] := List.length_eq_zero.mp hd
    subst hdets
    have hBIG := Option.some.inj (hupd.symm.trans (update_empty t))
    subst hBIG
    constructor
    · intro hgt
      exact @ageAll_lookup_del t.max_disappeared (keysOf t.disappeared)
        (t.paths, t.disappeared) id c hmemd hnd2 hInv.nodup hnd2 hid hgt
    · intro hle
      exact (@ageAll_lookup_keep t.max_disappeared (keysOf t.disappeared)
        (t.paths, t.disappeared) id c hmemd hnd2 hInv.nodup hnd2 hid hle).2
  · by_cases hp : t.paths.length = 0
    · exfalso
      have hpnil : t.paths = [] := List.length_eq_zero.mp hp
      have : keysOf t.disappeared = [] := by
        rw [← hInv.sync, hpnil]
        rfl
      rw [this] at hmemd
      simp at hmemd
    · have hok : distOk t dets = true := by
        by_contra hok
        rw [update_general_err hd hp (Bool.not_eq_true _ ▸ hok : distOk t dets = false)]
          at hupd
        cases hupd
      have hmemp : id ∈ keysOf t.paths := hInv.sync ▸ hmemd
      have hsplit := (@matchResult_ids_perm t dets).mem_iff.mpr hmemp
      rcases List.mem_append.mp hsplit with hmo | hmi
      · exfalso
        apply hunm
        simp only [matchedIds, hd, hp]
        rw [if_neg (by simp [hd, hp])]
        exact hmo
      · obtain ⟨r, hr, hre⟩ := List.mem_map.mp hmi
        have hmiss := update_general_missed hInv hd hp hok hupd hr (hre ▸ hid)
        constructor
        · intro hgt
          have := hmiss.1 hgt
          rw [hre] at this
          exact this
        · intro hle
          have := (hmiss.2 hle).2
          rw [hre] at this
          exact this

theorem unmatched_run_removed :
    ∀ {frames : List (List Obs)} {t t' : PathTracker} {id : Nat},
      Reachable t → (∀ ds ∈ frames, WFdets ds) →
      updateSeq t frames = some t' →
      unmatchedRun id t frames = true →
      ∀ c, alookup t.disappeared id = some c →
      t.max_disappeared + 1 ≤ c + frames.length →
      id ∉ keysOf t'.paths := by
  intro frames
  induction frames with
  | nil =>
    intro t t' id hr _ hseq _ c hc hlen
    exfalso
    have hInv := (reachable_inv hr).1
    have := hInv.counter_le _ (alookup_mem hc)
    simp at hlen
    omega
  | cons ds rest ih =>
    intro t t' id hr hWF hseq hrun c hc hlen
    have hInv := (reachable_inv hr).1
    cases hu : update t ds with
    | none =>
      simp only [updateSeq, hu] at hseq
      cases hseq
    | some t1 =>
      simp only [updateSeq, hu] at hseq
      simp only [unmatchedRun, hu, Bool.and_eq_true, decide_eq_true_eq] at hrun
      have hr1 : Reachable t1 := Reachable.step hr (hWF ds (List.mem_cons_self _ _)) hu
      have hpres := update_preserves hInv (hWF ds (List.mem_cons_self _ _)) hu
      have hstep := update_unmatched_step hInv hu hc hrun.1
      by_cases hgt : t.max_disappeared < c + 1
      · -- removed right now; it can never come back
        have hnone := (hstep.1 hgt).1
        have hnot1 : id ∉ keysOf t1.paths := by
          intro hmem
          obtain ⟨v, hv⟩ := mem_keysOf_iff.mp hmem
          rw [alookup_of_mem_nodup ((reachable_inv hr1).1).nodup hv] at hnone
          cases hnone
        have hlt : id < t1.next_id := by
          have h1 : id ∈ keysOf t.paths :=
            hInv.sync ▸ ((alookup_isSome_iff _ _).mp (by simp [hc]))
          have h2 := keysOf_lt_next hInv _ h1
          have := hpres.2.2.1
          omega
        obtain ⟨_, _, habs, _⟩ := updateSeq_reachable hr1
          (fun f hf => hWF f (List.mem_cons_of_mem _ hf)) hseq
        rcases habs id hnot1 with hnot' | hge
        · exact hnot'
        · omega
      · have hc1 := hstep.2 hgt
        have hmax : t1.max_disappeared = t.max_disappeared := hpres.2.2.2.1
        refine ih hr1 (fun f hf => hWF f (List.mem_cons_of_mem _ hf)) hseq hrun.2
          (c + 1) hc1 ?_
        rw [hmax]
        simp only [List.length_cons] at hlen
        omega

/-! ### The claims -/

/-- C10: after every update call, the set of IDs with a stored history (keys
of `paths`) is exactly the set of IDs with a missed-frame counter (keys of
`disappeared`): every live track has both entries and removal deletes both
together.  Proved in the stronger form that the two key lists are equal (same
elements in the same order) in every reachable state. -/
theorem c10_keys_sync {t : PathTracker} (hr : Reachable t) :
    keysOf t.paths = keysOf t.disappeared :=
  (reachable_inv hr).1.sync

/-- Witness for C10 at a concrete reachable state: one update call with one
detection on a fresh tracker. -/
theorem c10_keys_sync_witness :
    keysOf (PathTracker.mk [(0, [[0, 0, 1, 0]])] [(0, 0)] 1 10).paths =
      keysOf (PathTracker.mk [(0, [[0, 0, 1, 0]])] [(0, 0)] 1 10).disappeared :=
  c10_keys_sync (Reachable.step (v := [[0, 0, 1, 0]]) Reachable.init
    (by decide) (by decide))

/-- C4: calling `update` with `N` detections on a tracker with no live tracks
creates exactly `N` new tracks with consecutive IDs starting at the current
next-ID counter (`0..N-1` on a fresh tracker), each with a single-element
history holding its seeding detection and a missed counter of `0`. -/
theorem c4_cold_start {t : PathTracker} {dets : List Obs}
    (hp : t.paths = []) (hdis : t.disappeared = []) :
    update t dets = some { t with
      paths := seededPaths t.next_id dets,
      disappeared := seededDis t.next_id dets,
      next_id := t.next_id + dets.length } := by
  by_cases hd : dets.length = 0
  · have hdets : dets = [] := List.length_eq_zero.mp hd
    subst hdets
    rw [update_empty, hp, hdis]
    simp [ageAll, seededPaths, seededDis, keysOf]
  · have hp0 : t.paths.length = 0 := by rw [hp]; rfl
    rw [update_coldstart hd hp0]
    rw [seedTracks_eq (fun k hk => absurd hk (by simp [hp, keysOf]))
      (fun k hk => absurd hk (by simp [hdis, keysOf]))]
    rw [hp, hdis]
    simp

/-- Witness for C4: two detections on a fresh tracker become tracks 0 and 1. -/
theorem c4_cold_start_witness :
    update initTracker [[1, 2, 1, 0], [30, 40, 1, 0]] = some
      { paths := [(0, [[1, 2, 1, 0]]), (1, [[30, 40, 1, 0]])],
        disappeared := [(0, 0), (1, 0)], next_id := 2, max_disappeared := 10 } := by
  have h := @c4_cold_start initTracker [[1, 2, 1, 0], [30, 40, 1, 0]] rfl rfl
  rw [h]
  rfl

/-- C5: an update with an empty detection list increments every live track's
missed counter, removes (from both mappings) every track whose counter then
exceeds `max_disappeared`, creates no new tracks, and leaves every surviving
track's history unchanged. -/
theorem c5_empty_frame {t : PathTracker} (hInv : TrackerInv t) :
    ∃ t', update t [] = some t' ∧
      t'.next_id = t.next_id ∧ t'.max_disappeared = t.max_disappeared ∧
      (∀ id c, alookup t.disappeared id = some c →
        (c + 1 ≤ t.max_disappeared →
          alookup t'.disappeared id = some (c + 1) ∧
          alookup t'.paths id = alookup t.paths id) ∧
        (¬ c + 1 ≤ t.max_disappeared →
          alookup t'.disappeared id = none ∧ alookup t'.paths id = none)) ∧
      (∀ id, alookup t.disappeared id = none →
        alookup t'.disappeared id = none ∧
        alookup t'.paths id = alookup t.paths id) ∧
      (∀ id ∈ keysOf t'.paths, id ∈ keysOf t.paths) := by
  have hnd2 : (keysOf t.disappeared).Nodup := hInv.sync ▸ hInv.nodup
  refine ⟨_, update_empty t, rfl, rfl, ?_, ?_, ?_⟩
  · intro id c hc
    have hmem : id ∈ keysOf t.disappeared :=
      (alookup_isSome_iff _ _).mp (by simp [hc])
    constructor
    · intro hle
      have := @ageAll_lookup_keep t.max_disappeared (keysOf t.disappeared)
        (t.paths, t.disappeared) id c hmem hnd2 hInv.nodup hnd2 hc
        (by omega)
      exact ⟨this.2, this.1⟩
    · intro hgt
      have := @ageAll_lookup_del t.max_disappeared (keysOf t.disappeared)
        (t.paths, t.disappeared) id c hmem hnd2 hInv.nodup hnd2 hc
        (by omega)
      exact ⟨this.2, this.1⟩
  · intro id hc
    have hnot : id ∉ keysOf t.disappeared := (alookup_eq_none_iff _ _).mp hc
    have := @ageAll_lookup_notmem t.max_disappeared (keysOf t.disappeared)
      (t.paths, t.disappeared) id hnot
    exact ⟨this.2.trans hc, this.1⟩
  · intro id hid
    exact (@ageAll_keys_subset t.max_disappeared
      (keysOf t.disappeared) (t.paths, t.disappeared)).1 hid

/-- Witness for C5: a tracker with two live tracks, one at the removal bound;
the empty frame ages one to counter 1 and removes the other. -/
theorem c5_empty_frame_witness :
    alookup (PathTracker.mk [(0, [[0, 0]])] [(0, 1)] 2 10).disappeared 0 = some 1 ∧
    alookup (PathTracker.mk [(0, [[0, 0]])] [(0, 1)] 2 10).paths 0 = some [[0, 0]] ∧
    alookup (PathTracker.mk [(0, [[0, 0]])] [(0, 1)] 2 10).disappeared 1 = none ∧
    alookup (PathTracker.mk [(0, [[0, 0]])] [(0, 1)] 2 10).paths 1 = none := by
  obtain ⟨t', hu, hn, hm, hsome, _, _⟩ := c5_empty_frame
    (t := PathTracker.mk [(0, [[0, 0]]), (1, [[5, 5]])] [(0, 0), (1, 10)] 2 10)
    ⟨by decide, by decide, by decide, by decide, by decide⟩
  have ht' : t' = PathTracker.mk [(0, [[0, 0]])] [(0, 1)] 2 10 :=
    Option.some.inj (hu.symm.trans (by decide :
      update (PathTracker.mk [(0, [[0, 0]]), (1, [[5, 5]])]
        [(0, 0), (1, 10)] 2 10) [] = some (PathTracker.mk [(0, [[0, 0]])]
        [(0, 1)] 2 10)))
  subst ht'
  refine ⟨?_, ?_, ?_, ?_⟩
  · exact ((hsome 0 0 (by decide)).1 (by decide)).1
  · exact (((hsome 0 0 (by decide)).1 (by decide)).2).trans (by decide)
  · exact ((hsome 1 10 (by decide)).2 (by decide)).1
  · exact ((hsome 1 10 (by decide)).2 (by decide)).2

/-- C8 counterexample: with two or more points and zero elapsed time,
`calculate_speed` does not return the sentinel `0`: the unguarded numpy
division by zero yields IEEE infinity. -/
theorem c8_counterexample :
    calculate_speed [(0, 0), (3, 4)] 0 = FVal.inf ∧ FVal.inf ≠ FVal.fin 0 := by
  constructor
  · norm_num [calculate_speed]
  · intro h
    cases h

/-- C8 (amended): `calculate_speed` returns `0` whenever fewer than two points
exist; with two or more points and zero elapsed time the division is
unguarded, so the result is a non-finite IEEE value (infinity, or NaN when
the last two points coincide), never the sentinel `0`. -/
theorem c8_speed_zero_time (points : List (ℚ × ℚ)) (time_diff : ℚ) :
    (points.length < 2 → calculate_speed points time_diff = FVal.fin 0) ∧
    (2 ≤ points.length → time_diff = 0 →
      (calculate_speed points time_diff = FVal.inf ∨
       calculate_speed points time_diff = FVal.nan) ∧
      calculate_speed points time_diff ≠ FVal.fin 0) := by
  constructor
  · intro h
    simp [calculate_speed, h]
  · intro hlen hzero
    have hnot : ¬ points.length < 2 := by omega
    subst hzero
    rw [calculate_speed, if_neg hnot]
    simp only [if_pos rfl]
    by_cases hdsq : ((points.getD (points.length - 1) (0, 0)).1 -
          (points.getD (points.length - 2) (0, 0)).1) ^ 2 +
        ((points.getD (points.length - 1) (0, 0)).2 -
          (points.getD (points.length - 2) (0, 0)).2) ^ 2 = 0
    · rw [if_pos hdsq]
      exact ⟨Or.inr rfl, fun h => by cases h⟩
    · rw [if_neg hdsq]
      exact ⟨Or.inl rfl, fun h => by cases h⟩

/-- Witness for C8 (amended) at concrete inputs. -/
theorem c8_speed_zero_time_witness :
    calculate_speed [] 5 = FVal.fin 0 ∧
    (calculate_speed [(1, 1), (2, 2)] 0 = FVal.inf ∨
     calculate_speed [(1, 1), (2, 2)] 0 = FVal.nan) := by
  refine ⟨(c8_speed_zero_time [] 5).1 (by decide), ?_⟩
  exact ((c8_speed_zero_time [(1, 1), (2, 2)] 0).2 (by decide) rfl).1

/-- C9 counterexample: `update` does not fail fast on a malformed observation
with no position fields.  On a fresh tracker the empty tuple is silently
accepted verbatim as the one-element history of a brand-new track, and no
error is signalled. -/
theorem c9_counterexample :
    update initTracker [[]] =
      some (PathTracker.mk [(0, [[]])] [(0, 0)] 1 10) ∧
    update initTracker [[]] ≠ none := by
  constructor
  · rfl
  · intro h
    cases (rfl : update initTracker [[]] =
      some (PathTracker.mk [(0, [[]])] [(0, 0)] 1 10)) ▸ h

/-- C9 (amended): `update` performs no validation of observations.  An
observation with no position fields is accepted verbatim as a new track when
no tracks are live; with a live track, a one-field observation has a
broadcast distance silently computed against the track's 2-D position (here
matching it into the track's history); only a zero-field observation against
a live 2-D track makes the distance computation itself raise (the numpy
broadcast `ValueError`, not a validation error). -/
theorem c9_no_validation :
    update initTracker [[]] =
      some (PathTracker.mk [(0, [[]])] [(0, 0)] 1 10) ∧
    update (PathTracker.mk [(0, [[0, 0]])] [(0, 0)] 1 10) [[5]] =
      some (PathTracker.mk [(0, [[0, 0], [5]])] [(0, 0)] 1 10) ∧
    update (PathTracker.mk [(0, [[0, 0]])] [(0, 0)] 1 10) [[]] = none := by
  refine ⟨rfl, ?_, ?_⟩
  · norm_num [update, ageAll, ageOne, seedTracks, applyMatches, matchResult,
      matchLoop, pickPair, firstMinIdx, subFlat, prevCentroids, distOk,
      trackDistances, sqDist2, bsubSq, alookup, aset, adel, keysOf, THRESH_SQ,
      List.range_succ, List.eraseIdx]
  · norm_num [update, prevCentroids, distOk, sqDist2, bsubSq, alookup, keysOf]
    intro h
    exact absurd h (by simp)

/-- C3: over any sequence of update calls from a reachable state, the next-ID
counter is monotonically non-decreasing, a retired ID (one below the counter
that is not currently live) never appears again, and every live ID is below
the counter — so once an ID has been issued it is never issued a second
time. -/
theorem c3_id_monotonicity {t : PathTracker} (hr : Reachable t)
    {frames : List (List Obs)} {t' : PathTracker}
    (hWF : ∀ ds ∈ frames, WFdets ds) (hseq : updateSeq t frames = some t') :
    t.next_id ≤ t'.next_id ∧
    (∀ id, id < t.next_id → id ∉ keysOf t.paths → id ∉ keysOf t'.paths) ∧
    (∀ id ∈ keysOf t'.paths, id < t'.next_id) := by
  obtain ⟨hr', hmono, habs, _⟩ := updateSeq_reachable hr hWF hseq
  refine ⟨hmono, ?_, ?_⟩
  · intro id hlt hnot
    rcases habs id hnot with h1 | h2
    · exact h1
    · omega
  · intro id hid
    exact keysOf_lt_next (reachable_inv hr').1 _ hid

/-- Witness for C3: track 0 is created, starves for 11 frames and is removed;
a later detection is issued the fresh ID 1, and the retired ID 0 never
reappears. -/
theorem c3_id_monotonicity_witness :
    (PathTracker.mk [] [] 1 10).next_id ≤
      (PathTracker.mk [(1, [[9, 9, 1, 0]])] [(1, 0)] 2 10).next_id ∧
    0 ∉ keysOf (PathTracker.mk [(1, [[9, 9, 1, 0]])] [(1, 0)] 2 10).paths ∧
    1 < (PathTracker.mk [(1, [[9, 9, 1, 0]])] [(1, 0)] 2 10).next_id := by
  have g0 : Reachable (PathTracker.mk [(0, [[1, 2, 1, 0]])] [(0, 0)] 1 10) :=
    Reachable.step (v := [[1, 2, 1, 0]]) Reachable.init (by decide) (by decide)
  have g1 : Reachable (PathTracker.mk [(0, [[1, 2, 1, 0]])] [(0, 1)] 1 10) :=
    Reachable.step (v := []) g0 (by decide) (by decide)
  have g2 : Reachable (PathTracker.mk [(0, [[1, 2, 1, 0]])] [(0, 2)] 1 10) :=
    Reachable.step (v := []) g1 (by decide) (by decide)
  have g3 : Reachable (PathTracker.mk [(0, [[1, 2, 1, 0]])] [(0, 3)] 1 10) :=
    Reachable.step (v := []) g2 (by decide) (by decide)
  have g4 : Reachable (PathTracker.mk [(0, [[1, 2, 1, 0]])] [(0, 4)] 1 10) :=
    Reachable.step (v := []) g3 (by decide) (by decide)
  have g5 : Reachable (PathTracker.mk [(0, [[1, 2, 1, 0]])] [(0, 5)] 1 10) :=
    Reachable.step (v := []) g4 (by decide) (by decide)
  have g6 : Reachable (PathTracker.mk [(0, [[1, 2, 1, 0]])] [(0, 6)] 1 10) :=
    Reachable.step (v := []) g5 (by decide) (by decide)
  have g7 : Reachable (PathTracker.mk [(0, [[1, 2, 1, 0]])] [(0, 7)] 1 10) :=
    Reachable.step (v := []) g6 (by decide) (by decide)
  have g8 : Reachable (PathTracker.mk [(0, [[1, 2, 1, 0]])] [(0, 8)] 1 10) :=
    Reachable.step (v := []) g7 (by decide) (by decide)
  have g9 : Reachable (PathTracker.mk [(0, [[1, 2, 1, 0]])] [(0, 9)] 1 10) :=
    Reachable.step (v := []) g8 (by decide) (by decide)
  have g10 : Reachable (PathTracker.mk [(0, [[1, 2, 1, 0]])] [(0, 10)] 1 10) :=
    Reachable.step (v := []) g9 (by decide) (by decide)
  have g11 : Reachable (PathTracker.mk [] [] 1 10) :=
    Reachable.step (v := []) g10 (by decide) (by decide)
  obtain ⟨h1, h2, h3⟩ := @c3_id_monotonicity (PathTracker.mk [] [] 1 10)
    g11 [[[9, 9, 1, 0]]]
    (PathTracker.mk [(1, [[9, 9, 1, 0]])] [(1, 0)] 2 10)
    (by decide) (by decide)
  exact ⟨h1, h2 0 (by decide) (by decide), h3 1 (by decide)⟩

/-- C2: in every reachable state a track is live iff its missed-frame counter
exists and is at most `max_disappeared`; and a track that receives zero
matching detections for `max_disappeared + 1` consecutive frames is absent
from the output mapping at the end of those frames and stays absent under
any further updates. -/
theorem c2_live_iff_eventual_removal {t : PathTracker} (hr : Reachable t) :
    (∀ id, id ∈ keysOf t.paths ↔
      ∃ c, alookup t.disappeared id = some c ∧ c ≤ t.max_disappeared) ∧
    (∀ (frames frames2 : List (List Obs)) (t1 t2 : PathTracker) (id c : Nat),
      (∀ ds ∈ frames, WFdets ds) → (∀ ds ∈ frames2, WFdets ds) →
      updateSeq t frames = some t1 → updateSeq t1 frames2 = some t2 →
      unmatchedRun id t frames = true →
      alookup t.disappeared id = some c →
      frames.length = t.max_disappeared + 1 →
      id ∉ keysOf t1.paths ∧ id ∉ keysOf t2.paths) := by
  obtain ⟨hInv, _⟩ := reachable_inv hr
  constructor
  · intro id
    constructor
    · intro hmem
      have hmemd : id ∈ keysOf t.disappeared := hInv.sync ▸ hmem
      cases hc : alookup t.disappeared id with
      | none =>
        exact absurd hmemd ((alookup_eq_none_iff _ _).mp hc)
      | some c =>
        exact ⟨c, rfl, hInv.counter_le _ (alookup_mem hc)⟩
    · rintro ⟨c, hc, _⟩
      have hmemd : id ∈ keysOf t.disappeared :=
        (alookup_isSome_iff _ _).mp (by simp [hc])
      exact hInv.sync ▸ hmemd
  · intro frames frames2 t1 t2 id c hWF1 hWF2 hseq1 hseq2 hrun hc hlen
    have hgone : id ∉ keysOf t1.paths := by
      refine unmatched_run_removed hr hWF1 hseq1 hrun c hc ?_
      omega
    refine ⟨hgone, ?_⟩
    obtain ⟨hr1, hmono1, _, _⟩ := updateSeq_reachable hr hWF1 hseq1
    have hmemp : id ∈ keysOf t.paths :=
      hInv.sync ▸ ((alookup_isSome_iff _ _).mp (by simp [hc]))
    have hlt : id < t1.next_id := by
      have := keysOf_lt_next hInv _ hmemp
      omega
    obtain ⟨_, _, habs, _⟩ := updateSeq_reachable hr1 hWF2 hseq2
    rcases habs id hgone with h1 | h2
    · exact h1
    · omega

/-- Witness for C2: a tracker with one live track fed 11 empty frames; the
track is removed and stays absent. -/
theorem c2_live_iff_eventual_removal_witness :
    0 ∉ keysOf (PathTracker.mk [] [] 1 10).paths := by
  have hr : Reachable (PathTracker.mk [(0, [[1, 2, 1, 0]])] [(0, 0)] 1 10) :=
    Reachable.step (v := [[1, 2, 1, 0]]) Reachable.init (by decide) (by decide)
  obtain ⟨hiff, hrem⟩ := c2_live_iff_eventual_removal hr
  exact (hrem (List.replicate 11 []) [] (PathTracker.mk [] [] 1 10)
    (PathTracker.mk [] [] 1 10) 0 0 (by decide) (by decide) (by decide) (by decide)
    (by decide) (by decide) (by decide)).2

/-- C7: within a single update the matching is a 1:1 bipartite assignment: the
committed matches pair pairwise-distinct track rows with pairwise-distinct
detection columns, and consequently an existing track's history either stays
unchanged or grows by exactly the one matched detection. -/
theorem c7_bipartite_one_to_one {t : PathTracker} {dets : List Obs}
    (hInv : TrackerInv t) {t' : PathTracker} (hupd : update t dets = some t') :
    ((matchResult t dets).1.map Prod.fst).Nodup ∧
    ((matchResult t dets).1.map Prod.snd).Nodup ∧
    ∀ id h0 h', alookup t.paths id = some h0 → alookup t'.paths id = some h' →
      h' = h0 ∨ ∃ j < dets.length, h' = h0 ++ [dets.getD j []] := by
  have hrows := (matchResult_perm_rows t dets).symm.nodup (List.nodup_range _)
  have hcols := (matchResult_perm_cols t dets).symm.nodup (List.nodup_range _)
  refine ⟨(List.nodup_append.mp hrows).1, (List.nodup_append.mp hcols).1, ?_⟩
  intro id h0 h' h0lk h'lk
  by_cases hd : dets.length = 0
  · have hdets : dets = [] := List.length_eq_zero.mp hd
    subst hdets
    have hBIG := Option.some.inj (hupd.symm.trans (update_empty t))
    subst hBIG
    have hnd2 : (keysOf t.disappeared).Nodup := hInv.sync ▸ hInv.nodup
    have := ageAll_paths_some hInv.nodup hnd2 h'lk
    rw [h0lk] at this
    exact Or.inl (Option.some.inj this).symm
  · by_cases hp : t.paths.length = 0
    · rw [List.length_eq_zero.mp hp] at h0lk
      cases h0lk
    · have hok : distOk t dets = true := by
        by_contra hok
        rw [update_general_err hd hp (Bool.not_eq_true _ ▸ hok : distOk t dets = false)]
          at hupd
        cases hupd
      have hmemp : id ∈ keysOf t.paths :=
        (alookup_isSome_iff _ _).mp (by simp [h0lk])
      have hsplit := (@matchResult_ids_perm t dets).mem_iff.mpr hmemp
      rcases List.mem_append.mp hsplit with hmo | hmi
      · obtain ⟨rc, hrc, hre⟩ := List.mem_map.mp hmo
        have hm := update_general_matched hInv hd hp hok hupd hrc
        rw [hre] at hm
        rw [hm.1, h0lk] at h'lk
        refine Or.inr ⟨rc.2, (matchResult_matches hrc).2.1, ?_⟩
        exact (Option.some.inj h'lk).symm
      · obtain ⟨r, hr, hre⟩ := List.mem_map.mp hmi
        have hmemd : id ∈ keysOf t.disappeared := hInv.sync ▸ hmemp
        cases hcd : alookup t.disappeared id with
        | none => exact absurd hmemd ((alookup_eq_none_iff _ _).mp hcd)
        | some c =>
          have hm := update_general_missed hInv hd hp hok hupd hr (hre ▸ hcd)
          by_cases hgt : t.max_disappeared < c + 1
          · have := (hm.1 hgt).1
            rw [hre] at this
            rw [this] at h'lk
            cases h'lk
          · have := (hm.2 hgt).1
            rw [hre] at this
            rw [this, h0lk] at h'lk
            exact Or.inl (Option.some.inj h'lk).symm

/-- Witness for C7: two live tracks, one detection matched to track 1 and one
far detection seeding a new track. -/
theorem c7_bipartite_one_to_one_witness :
    ((matchResult (PathTracker.mk [(0, [[0, 0]]), (1, [[50, 0]])]
        [(0, 0), (1, 0)] 2 10) [[49, 0], [1000, 0]]).1.map Prod.fst).Nodup ∧
    ((matchResult (PathTracker.mk [(0, [[0, 0]]), (1, [[50, 0]])]
        [(0, 0), (1, 0)] 2 10) [[49, 0], [1000, 0]]).1.map Prod.snd).Nodup := by
  have hupd : update (PathTracker.mk [(0, [[0, 0]]), (1, [[50, 0]])]
      [(0, 0), (1, 0)] 2 10) [[49, 0], [1000, 0]] =
      some (PathTracker.mk
        [(0, [[0, 0]]), (1, [[50, 0], [49, 0]]), (2, [[1000, 0]])]
        [(0, 1), (1, 0), (2, 0)] 3 10) := by
    norm_num [update, ageAll, ageOne, seedTracks, applyMatches, matchResult,
      matchLoop, pickPair, firstMinIdx, subFlat, prevCentroids, distOk,
      trackDistances, sqDist2, bsubSq, alookup, aset, adel, keysOf, THRESH_SQ,
      List.range_succ, List.eraseIdx]
  obtain ⟨h1, h2, _⟩ := c7_bipartite_one_to_one
    ⟨by decide, by decide, by decide, by decide, by decide⟩ hupd
  exact ⟨h1, h2⟩

/-- C1: in the general case (live tracks and detections both present), the
matching phase is exactly the spec's greedy loop (`SpecGreedy`): it
repeatedly commits the globally smallest remaining track/detection distance
while it is strictly below the threshold, and stops entirely once the
smallest remaining distance reaches it; each committed match appends the
detection to the track's history and resets its counter to 0, and every
detection left unmatched seeds a new track under the next sequential IDs. -/
theorem c1_greedy_matching {t : PathTracker} {dets : List Obs}
    (hInv : TrackerInv t) (hd : dets.length ≠ 0) (hp : t.paths.length ≠ 0)
    (hok : distOk t dets = true) {t' : PathTracker}
    (hupd : update t dets = some t') :
    SpecGreedy (trackDistances t dets) (List.range t.paths.length)
      (List.range dets.length) (matchResult t dets).1
      (matchResult t dets).2.1 (matchResult t dets).2.2 ∧
    (∀ rc ∈ (matchResult t dets).1,
      trackDistances t dets rc.1 rc.2 < THRESH_SQ ∧
      alookup t'.paths ((keysOf t.paths).getD rc.1 0) =
        some (((alookup t.paths ((keysOf t.paths).getD rc.1 0)).getD []) ++
          [dets.getD rc.2 []]) ∧
      alookup t'.disappeared ((keysOf t.paths).getD rc.1 0) = some 0) ∧
    (∀ j < (matchResult t dets).2.2.length,
      alookup t'.paths (t.next_id + j) =
        some [dets.getD ((matchResult t dets).2.2.getD j 0) []] ∧
      alookup t'.disappeared (t.next_id + j) = some 0) ∧
    t'.next_id = t.next_id + (matchResult t dets).2.2.length := by
  refine ⟨?_, ?_, ?_, (update_general_shape hInv hd hp hok hupd).2.2.1⟩
  · rw [matchResult_eq hd hp]
    exact matchLoop_spec _ _ _ _ (by simp) (List.nodup_range _) (List.nodup_range _)
  · intro rc hrc
    obtain ⟨a, b⟩ := update_general_matched hInv hd hp hok hupd hrc
    exact ⟨(matchResult_matches hrc).2.2, a, b⟩
  · intro j hj
    exact update_general_seeded hInv hd hp hok hupd hj

/-- Witness for C1: one live track at the origin and one detection at
distance 5; the greedy loop commits the single pair and appends it. -/
theorem c1_greedy_matching_witness :
    SpecGreedy (trackDistances (PathTracker.mk [(0, [[0, 0]])] [(0, 0)] 1 10) [[3, 4]])
      (List.range 1) (List.range 1)
      (matchResult (PathTracker.mk [(0, [[0, 0]])] [(0, 0)] 1 10) [[3, 4]]).1
      (matchResult (PathTracker.mk [(0, [[0, 0]])] [(0, 0)] 1 10) [[3, 4]]).2.1
      (matchResult (PathTracker.mk [(0, [[0, 0]])] [(0, 0)] 1 10) [[3, 4]]).2.2 ∧
    alookup (PathTracker.mk [(0, [[0, 0], [3, 4]])] [(0, 0)] 1 10).paths 0 =
      some [[0, 0], [3, 4]] ∧
    alookup (PathTracker.mk [(0, [[0, 0], [3, 4]])] [(0, 0)] 1 10).disappeared 0 =
      some 0 ∧
    (PathTracker.mk [(0, [[0, 0], [3, 4]])] [(0, 0)] 1 10).next_id =
      1 + (matchResult (PathTracker.mk [(0, [[0, 0]])] [(0, 0)] 1 10) [[3, 4]]).2.2.length := by
  have hupd : update (PathTracker.mk [(0, [[0, 0]])] [(0, 0)] 1 10) [[3, 4]] =
      some (PathTracker.mk [(0, [[0, 0], [3, 4]])] [(0, 0)] 1 10) := by
    norm_num [update, ageAll, ageOne, seedTracks, applyMatches, matchResult,
      matchLoop, pickPair, firstMinIdx, subFlat, prevCentroids, distOk,
      trackDistances, sqDist2, bsubSq, alookup, aset, adel, keysOf, THRESH_SQ,
      List.range_succ, List.eraseIdx]
  have hmr : matchResult (PathTracker.mk [(0, [[0, 0]])] [(0, 0)] 1 10) [[3, 4]] =
      ([(0, 0)], [], []) := by
    norm_num [matchResult, matchLoop, pickPair, firstMinIdx, subFlat,
      prevCentroids, trackDistances, sqDist2, bsubSq, alookup, keysOf, THRESH_SQ]
  obtain ⟨hspec, hmat, _, hnext⟩ := @c1_greedy_matching
    (PathTracker.mk [(0, [[0, 0]])] [(0, 0)] 1 10) [[3, 4]]
    ⟨by decide, by decide, by decide, by decide, by decide⟩
    (by decide) (by decide) (by decide)
    (PathTracker.mk [(0, [[0, 0], [3, 4]])] [(0, 0)] 1 10) hupd
  have hrc : ((0, 0) : Nat × Nat) ∈
      (matchResult (PathTracker.mk [(0, [[0, 0]])] [(0, 0)] 1 10) [[3, 4]]).1 := by
    rw [hmr]
    exact List.mem_singleton.mpr rfl
  obtain ⟨_, ha, hb⟩ := hmat (0, 0) hrc
  exact ⟨hspec, ha, hb, hnext⟩

/-- C6: matching is strict at the threshold.  For a single live track and a
single detection, a detection whose squared distance to the track's last
observation is exactly `THRESH_SQ` (Euclidean distance exactly 100) is not
matched — the track's history is unchanged and the detection seeds a new
track — while a squared distance strictly below `THRESH_SQ` (distance
strictly below 100) is matched and appended. -/
theorem c6_threshold_strictness {id0 c nid mx : Nat} {h0 : List Obs} {d : Obs}
    (hh : h0 ≠ []) (hb : id0 < nid) (hcm : c ≤ mx) (hc1 : c + 1 ≤ mx)
    {t' : PathTracker}
    (hupd : update (PathTracker.mk [(id0, h0)] [(id0, c)] nid mx) [d] = some t') :
    (sqDist2 (h0.getLastD []) d = some THRESH_SQ →
      alookup t'.paths id0 = some h0 ∧
      alookup t'.paths nid = some [d] ∧
      alookup t'.disappeared nid = some 0 ∧
      t'.next_id = nid + 1) ∧
    (∀ s, sqDist2 (h0.getLastD []) d = some s → s < THRESH_SQ →
      alookup t'.paths id0 = some (h0 ++ [d]) ∧
      alookup t'.disappeared id0 = some 0 ∧
      t'.next_id = nid) := by
  have hInv : TrackerInv (PathTracker.mk [(id0, h0)] [(id0, c)] nid mx) := by
    refine ⟨by simp [keysOf], rfl, ?_, ?_, ?_⟩
    · intro e he
      rcases List.mem_singleton.mp he with rfl
      exact hb
    · intro e he
      rcases List.mem_singleton.mp he with rfl
      exact hh
    · intro e he
      rcases List.mem_singleton.mp he with rfl
      exact hcm
  have hd : ([d] : List Obs).length ≠ 0 := by simp
  have hp : (PathTracker.mk [(id0, h0)] [(id0, c)] nid mx).paths.length ≠ 0 := by simp
  have hok : distOk (PathTracker.mk [(id0, h0)] [(id0, c)] nid mx) [d] = true := by
    by_contra hok
    rw [update_general_err hd hp (Bool.not_eq_true _ ▸ hok :
      distOk (PathTracker.mk [(id0, h0)] [(id0, c)] nid mx) [d] = false)] at hupd
    cases hupd
  have hprev : prevCentroids (PathTracker.mk [(id0, h0)] [(id0, c)] nid mx) =
      [h0.getLastD []] := by
    simp [prevCentroids, keysOf, alookup]
  have hD : trackDistances (PathTracker.mk [(id0, h0)] [(id0, c)] nid mx) [d] 0 0 =
      (sqDist2 (h0.getLastD []) d).getD 0 := by
    simp [trackDistances, hprev]
  have hne : 0 < ([0] : List Nat).length ∧ 0 < ([0] : List Nat).length :=
    ⟨by simp, by simp⟩
  have hpick : pickPair
      (trackDistances (PathTracker.mk [(id0, h0)] [(id0, c)] nid mx) [d]) [0] [0] =
      (0, 0) := by simp [pickPair, subFlat, firstMinIdx]
  have hgetd : (keysOf (PathTracker.mk [(id0, h0)] [(id0, c)] nid mx).paths).getD 0 0 =
      id0 := rfl
  have hplk : alookup (PathTracker.mk [(id0, h0)] [(id0, c)] nid mx).paths id0 =
      some h0 := by simp [alookup]
  have hdlk : alookup (PathTracker.mk [(id0, h0)] [(id0, c)] nid mx).disappeared id0 =
      some c := by simp [alookup]
  constructor
  · intro heq
    have hs : trackDistances (PathTracker.mk [(id0, h0)] [(id0, c)] nid mx) [d] 0 0 =
        THRESH_SQ := by rw [hD, heq]; rfl
    have hcond : ¬ trackDistances (PathTracker.mk [(id0, h0)] [(id0, c)] nid mx) [d]
        (([0] : List Nat).getD (pickPair
          (trackDistances (PathTracker.mk [(id0, h0)] [(id0, c)] nid mx) [d]) [0] [0]).1 0)
        (([0] : List Nat).getD (pickPair
          (trackDistances (PathTracker.mk [(id0, h0)] [(id0, c)] nid mx) [d]) [0] [0]).2 0)
        < THRESH_SQ := by
      rw [hpick]
      rw [show (([0] : List Nat).getD 0 0) = 0 from rfl, hs]
      exact lt_irrefl _
    have hmr : matchResult (PathTracker.mk [(id0, h0)] [(id0, c)] nid mx) [d] =
        ([], [0], [0]) := by
      rw [matchResult_eq hd hp]
      exact matchLoop_succ_stop hne hcond
    have hr0 : 0 ∈ (matchResult (PathTracker.mk [(id0, h0)] [(id0, c)] nid mx) [d]).2.1 := by
      rw [hmr]
      exact List.mem_singleton.mpr rfl
    have hmiss := update_general_missed hInv hd hp hok hupd hr0 (hgetd ▸ hdlk)
    have hkeep := hmiss.2 (by show ¬ mx < c + 1; omega)
    have hseed := update_general_seeded hInv hd hp hok hupd (j := 0)
      (by rw [hmr]; simp)
    rw [hmr] at hseed
    refine ⟨?_, ?_, ?_, ?_⟩
    · rw [hgetd] at hkeep
      exact hkeep.1.trans hplk
    · simpa using hseed.1
    · simpa using hseed.2
    · rw [(update_general_shape hInv hd hp hok hupd).2.2.1, hmr]
      rfl
  · intro s hseq hslt
    have hs : trackDistances (PathTracker.mk [(id0, h0)] [(id0, c)] nid mx) [d] 0 0 =
        s := by rw [hD, hseq]; rfl
    have hcond : trackDistances (PathTracker.mk [(id0, h0)] [(id0, c)] nid mx) [d]
        (([0] : List Nat).getD (pickPair
          (trackDistances (PathTracker.mk [(id0, h0)] [(id0, c)] nid mx) [d]) [0] [0]).1 0)
        (([0] : List Nat).getD (pickPair
          (trackDistances (PathTracker.mk [(id0, h0)] [(id0, c)] nid mx) [d]) [0] [0]).2 0)
        < THRESH_SQ := by
      rw [hpick]
      rw [show (([0] : List Nat).getD 0 0) = 0 from rfl, hs]
      exact hslt
    have hmr : matchResult (PathTracker.mk [(id0, h0)] [(id0, c)] nid mx) [d] =
        ([(0, 0)], [], []) := by
      rw [matchResult_eq hd hp]
      exact (matchLoop_succ_commit hne hcond).trans (by rw [hpick]; rfl)
    have hrc : ((0, 0) : Nat × Nat) ∈
        (matchResult (PathTracker.mk [(id0, h0)] [(id0, c)] nid mx) [d]).1 := by
      rw [hmr]
      exact List.mem_singleton.mpr rfl
    have hmat := update_general_matched hInv hd hp hok hupd hrc
    rw [hgetd, hplk] at hmat
    refine ⟨?_, hmat.2, ?_⟩
    · simpa using hmat.1
    · rw [(update_general_shape hInv hd hp hok hupd).2.2.1, hmr]
      rfl

/-- Witness for C6: a track at the origin; a detection at `(100, 0)` (distance
exactly 100) is rejected and seeds track 8, while a detection at `(99, 0)`
(distance 99) is matched and appended. -/
theorem c6_threshold_strictness_witness :
    (alookup (PathTracker.mk [(7, [[0, 0]]), (8, [[100, 0]])]
        [(7, 1), (8, 0)] 9 10).paths 7 = some [[0, 0]] ∧
      alookup (PathTracker.mk [(7, [[0, 0]]), (8, [[100, 0]])]
        [(7, 1), (8, 0)] 9 10).paths 8 = some [[100, 0]] ∧
      alookup (PathTracker.mk [(7, [[0, 0]]), (8, [[100, 0]])]
        [(7, 1), (8, 0)] 9 10).disappeared 8 = some 0 ∧
      (PathTracker.mk [(7, [[0, 0]]), (8, [[100, 0]])]
        [(7, 1), (8, 0)] 9 10).next_id = 8 + 1) ∧
    (alookup (PathTracker.mk [(7, [[0, 0], [99, 0]])]
        [(7, 0)] 8 10).paths 7 = some ([[0, 0]] ++ [[99, 0]]) ∧
      alookup (PathTracker.mk [(7, [[0, 0], [99, 0]])]
        [(7, 0)] 8 10).disappeared 7 = some 0 ∧
      (PathTracker.mk [(7, [[0, 0], [99, 0]])] [(7, 0)] 8 10).next_id = 8) := by
  have hupd1 : update (PathTracker.mk [(7, [[0, 0]])] [(7, 0)] 8 10) [[100, 0]] =
      some (PathTracker.mk [(7, [[0, 0]]), (8, [[100, 0]])] [(7, 1), (8, 0)] 9 10) := by
    norm_num [update, ageAll, ageOne, seedTracks, applyMatches, matchResult,
      matchLoop, pickPair, firstMinIdx, subFlat, prevCentroids, distOk,
      trackDistances, sqDist2, bsubSq, alookup, aset, adel, keysOf, THRESH_SQ,
      List.range_succ, List.eraseIdx]
  have hupd2 : update (PathTracker.mk [(7, [[0, 0]])] [(7, 0)] 8 10) [[99, 0]] =
      some (PathTracker.mk [(7, [[0, 0], [99, 0]])] [(7, 0)] 8 10) := by
    norm_num [update, ageAll, ageOne, seedTracks, applyMatches, matchResult,
      matchLoop, pickPair, firstMinIdx, subFlat, prevCentroids, distOk,
      trackDistances, sqDist2, bsubSq, alookup, aset, adel, keysOf, THRESH_SQ,
      List.range_succ, List.eraseIdx]
  have h1 := (@c6_threshold_strictness 7 0 8 10 [[0, 0]] [100, 0]
    (by simp) (by omega) (by omega) (by omega)
    (PathTracker.mk [(7, [[0, 0]]), (8, [[100, 0]])] [(7, 1), (8, 0)] 9 10)
    hupd1).1 (by norm_num [sqDist2, bsubSq, THRESH_SQ])
  have h2 := (@c6_threshold_strictness 7 0 8 10 [[0, 0]] [99, 0]
    (by simp) (by omega) (by omega) (by omega)
    (PathTracker.mk [(7, [[0, 0], [99, 0]])] [(7, 0)] 8 10)
    hupd2).2 9801 (by norm_num [sqDist2, bsubSq]) (by norm_num [THRESH_SQ])
  exact ⟨h1, h2⟩
